import Mathlib

/-!
Adaptive voxel down-sampling (`down_sample.cpp`).

A shallow embedding of the down-sampling core of `src/down_sample/down_sample.cpp`:
the voxel key (`get_voxel`), the key comparator (`Vector3iComp`), the per-voxel
reservoir (`SamplePointsContainer` with `insert_if_room` and `resize`) and the
driver `adaptive_sampling`.

Modelling conventions.
* C++ `double` values are exact rationals (`ℚ`); rounding error is not modelled.
* C++ `int` keys are unbounded `Int`; the double-to-int conversion is truncation
  toward zero (`toInt`). Where the range of the key matters, the conversion to the 32-bit
  `int` is `toInt32`, and `get_voxel32`, `streamingPass32` run the streaming pass with it.
* `size_t` counters are `Nat`.
* `std::vector<VoxelCenter>` is a `List VoxelCenter`; `std::vector::resize` is `vecResize`.
* `std::map<Vector3i, SamplePointsContainer, Vector3iComp>` is a list of entries kept in
  comparator order (`VoxelMap`), searched and updated through the comparator only.
* The external routine `pcl::PCA` is a parameter (`Pca`): `pca cloud t` stands for
  "the third (smallest) eigenvalue reported for `cloud` is greater than `t`".
  `pclPca` is an exact rational instance of that test.
* An out-of-range read of the input vectors is undefined behaviour in C++ and is
  reported as `none`.
-/

namespace DownSample

/-! ## Data model -/

/-- Eigen::Vector3d, three doubles. -/
abbrev Vector3d := ℚ × ℚ × ℚ

/-- Eigen::Vector3i, three ints. -/
abbrev Vector3i := Int × Int × Int

/-- The `VoxelCenter` class: snapped position, colour and label. -/
structure VoxelCenter where
  x : ℚ
  y : ℚ
  z : ℚ
  r : ℚ
  g : ℚ
  b : ℚ
  label : Int
deriving DecidableEq

/-- A value-initialised `VoxelCenter` (every member zero), as produced by
`std::vector<VoxelCenter>(n)` and by a growing `std::vector::resize`. -/
def VoxelCenter.zero : VoxelCenter :=
  { x := 0, y := 0, z := 0, r := 0, g := 0, b := 0, label := 0 }

/-- The `SamplePointsContainer` class: capacity `n`, fill counter `i`, slots `points_`. -/
structure SamplePointsContainer where
  n : Nat
  i : Nat
  points_ : List VoxelCenter
deriving DecidableEq

/-- The constructor `SamplePointsContainer()`: `n = 10`, `i = 0` and `n` zeroed slots. -/
def SamplePointsContainer.new : SamplePointsContainer :=
  { n := 10, i := 0, points_ := List.replicate 10 VoxelCenter.zero }

/-- The method `size()`. -/
def SamplePointsContainer.size (c : SamplePointsContainer) : Nat := c.points_.length

/-- The call `std::vector::resize(k)`: keep the first `k` elements, or pad with
value-initialised elements up to length `k`. -/
def vecResize (v : List VoxelCenter) (k : Nat) : List VoxelCenter :=
  v.take k ++ List.replicate (k - v.length) VoxelCenter.zero

/-! ## The external PCA routine -/

/-- The external `pcl::PCA` as used by `resize`: `pca cloud t` is the outcome of
`pca.setInputCloud(cloud); pca.getEigenValues()(2) > t`. -/
abbrev Pca := List Vector3d → ℚ → Bool

/-- A default-constructed `pcl::PointXYZRGBNormal`: the library sets `x = y = z = 0`. -/
def pclPointDefault : Vector3d := (0, 0, 0)

/-- Componentwise sum of a cloud. -/
def cloudSum (cloud : List Vector3d) : Vector3d :=
  cloud.foldl (fun acc p => (acc.1 + p.1, acc.2.1 + p.2.1, acc.2.2 + p.2.2)) (0, 0, 0)

/-- The centroid of a cloud (`pcl::compute3DCentroid`). -/
def centroid (cloud : List Vector3d) : Vector3d :=
  let s := cloudSum cloud
  let k : ℚ := cloud.length
  (s.1 / k, s.2.1 / k, s.2.2 / k)

/-- The cloud with its centroid subtracted (`pcl::demeanPointCloud`). -/
def demean (cloud : List Vector3d) : List Vector3d :=
  let m := centroid cloud
  cloud.map (fun p => (p.1 - m.1, p.2.1 - m.2.1, p.2.2 - m.2.2))

/-- The symmetric 3x3 matrix `D * Dᵀ` of the demeaned cloud, as the six entries
`(a00, a01, a02, a11, a12, a22)`. The library decomposes this matrix. -/
def scatter (cloud : List Vector3d) : ℚ × ℚ × ℚ × ℚ × ℚ × ℚ :=
  let d := demean cloud
  let dot (f g : Vector3d → ℚ) : ℚ := (d.map (fun p => f p * g p)).sum
  (dot (·.1) (·.1), dot (·.1) (·.2.1), dot (·.1) (·.2.2),
   dot (·.2.1) (·.2.1), dot (·.2.1) (·.2.2), dot (·.2.2) (·.2.2))

/-- External library routine `pcl::PCA`, modelled by its documented behaviour in exact
arithmetic: the eigenvalues are those of the scatter matrix `A` of the cloud, in
descending order. The smallest eigenvalue of a symmetric matrix exceeds `t` exactly when
`A - t I` is positive definite, that is when its three leading principal minors are
positive. (The library rejects clouds of fewer than three points; the container always
passes `n = 10`.) -/
def pclPca : Pca := fun cloud t =>
  let a := scatter cloud
  let a00 := a.1 - t
  let a01 := a.2.1
  let a02 := a.2.2.1
  let a11 := a.2.2.2.1 - t
  let a12 := a.2.2.2.2.1
  let a22 := a.2.2.2.2.2 - t
  let m1 := a00
  let m2 := a00 * a11 - a01 * a01
  let m3 := a00 * (a11 * a22 - a12 * a12) - a01 * (a01 * a22 - a12 * a02)
            + a02 * (a01 * a12 - a11 * a02)
  decide (0 < m1) && decide (0 < m2) && decide (0 < m3)

/-! ## The reservoir -/

/-- The squared distance computed in the loop of `insert_if_room`. -/
def sqDist (vc p : VoxelCenter) : ℚ :=
  (vc.x - p.x) * (vc.x - p.x) + (vc.y - p.y) * (vc.y - p.y) + (vc.z - p.z) * (vc.z - p.z)

/-- The loop `for (j = 0; j < i; j++) { d = ...; if (d < dmin) dmin = d; }` of
`insert_if_room`, started from `dmin = 1e7`. -/
def dminLoop (vc : VoxelCenter) (points_ : List VoxelCenter) (i : Nat) : ℚ :=
  (List.range i).foldl
    (fun dmin j =>
      let d := sqDist vc (points_.getD j VoxelCenter.zero)
      if d < dmin then d else dmin)
    10000000

/-- The method `SamplePointsContainer::resize`. The cloud handed to the PCA is `smallpc`,
a fresh cloud of `width * height = n` default points. -/
def resize (pca : Pca) (c : SamplePointsContainer) : SamplePointsContainer :=
  if c.i < 3 then
    { c with points_ := vecResize c.points_ c.i }
  else
    let smallpc : List Vector3d := List.replicate (c.n * 1) pclPointDefault
    if pca smallpc (1 / 100000) then
      { c with points_ := vecResize c.points_ 4 }
    else
      { c with points_ := vecResize c.points_ 1 }

/-- The first block of `insert_if_room` (`if (i < n) { ... }`): the distance scan and
the conditional store. -/
def acceptBlock (c : SamplePointsContainer) (vc : VoxelCenter) : SamplePointsContainer :=
  if c.i < c.n then
    let dmin := dminLoop vc c.points_ c.i
    if dmin > 1 / 1000 then
      { c with points_ := c.points_.set c.i vc, i := c.i + 1 }
    else c
  else c

/-- The second block of `insert_if_room` (`if (i == n) { resize(); i++; }`). -/
def capacityBlock (pca : Pca) (c : SamplePointsContainer) : SamplePointsContainer :=
  if c.i = c.n then
    let c1 := resize pca c
    { c1 with i := c1.i + 1 }
  else c

/-- The method `SamplePointsContainer::insert_if_room`: the two blocks in sequence. -/
def insert_if_room (pca : Pca) (c : SamplePointsContainer) (vc : VoxelCenter) :
    SamplePointsContainer :=
  capacityBlock pca (acceptBlock c vc)

/-! ## Voxel keys -/

/-- Conversion of a `double` to `int`: truncation toward zero. -/
def toInt (d : ℚ) : Int := if 0 ≤ d then ⌊d⌋ else ⌈d⌉

/-- The function `get_voxel`: per axis `int index = std::floor(c / voxel_size) + 0.5`. -/
def get_voxel (x y z voxel_size : ℚ) : Vector3i :=
  let x_index := toInt ((⌊x / voxel_size⌋ : ℚ) + 1 / 2)
  let y_index := toInt ((⌊y / voxel_size⌋ : ℚ) + 1 / 2)
  let z_index := toInt ((⌊z / voxel_size⌋ : ℚ) + 1 / 2)
  (x_index, y_index, z_index)

/-- The comparator `Vector3iComp::operator()`. -/
def Vector3iComp (v1 v2 : Vector3i) : Bool :=
  if v1.1 < v2.1 then true
  else if v1.1 = v2.1 then
    if v1.2.1 < v2.2.1 then true
    else if v1.2.1 = v2.2.1 ∧ v1.2.2 < v2.2.2 then true
    else false
  else false

/-! ## The voxel map -/

/-- The `std::map<Eigen::Vector3i, SamplePointsContainer, Vector3iComp>`: entries in
comparator order. -/
abbrev VoxelMap := List (Vector3i × SamplePointsContainer)

/-- Key equivalence of `std::map`: neither key compares below the other. -/
def keyEquiv (a b : Vector3i) : Bool := !Vector3iComp a b && !Vector3iComp b a

/-- The call `voxels.count(vox)`: 1 when an equivalent key is present, else 0. -/
def VoxelMap.count : VoxelMap → Vector3i → Nat
  | [], _ => 0
  | (k, _) :: rest, vox => if keyEquiv k vox then 1 else VoxelMap.count rest vox

/-- Reading `voxels[vox]`: the stored container, or a default-constructed one when the
key is absent. -/
def VoxelMap.lookup : VoxelMap → Vector3i → SamplePointsContainer
  | [], _ => SamplePointsContainer.new
  | (k, c) :: rest, vox => if keyEquiv k vox then c else VoxelMap.lookup rest vox

/-- Writing `voxels[vox] = c`: overwrite the entry of an equivalent key, or insert a new
entry at its place in comparator order. -/
def VoxelMap.assign : VoxelMap → Vector3i → SamplePointsContainer → VoxelMap
  | [], vox, c => [(vox, c)]
  | (k, c0) :: rest, vox, c =>
    if Vector3iComp k vox then (k, c0) :: VoxelMap.assign rest vox c
    else if Vector3iComp vox k then (vox, c) :: (k, c0) :: rest
    else (k, c) :: rest

/-! ## The driver -/

/-- The part of `open3d::PointCloud` that is read: `points_` and `colors_`. -/
structure PointCloud where
  points_ : List Vector3d
  colors_ : List Vector3d

/-- One line of the sparse output: `x y z r g b` and, in a labelled run, the label. -/
structure OutputLine where
  x : ℚ
  y : ℚ
  z : ℚ
  r : ℚ
  g : ℚ
  b : ℚ
  label : Option Int
deriving DecidableEq

/-- The `VoxelCenter vc` built in both branches of the loop body: the position snapped
with `std::floor(c / voxel_size) * voxel_size`, the colour and the label. -/
def makeCenter (p col : Vector3d) (dense_label : Int) (voxel_size : ℚ) : VoxelCenter :=
  { x := (⌊p.1 / voxel_size⌋ : ℚ) * voxel_size
    y := (⌊p.2.1 / voxel_size⌋ : ℚ) * voxel_size
    z := (⌊p.2.2 / voxel_size⌋ : ℚ) * voxel_size
    r := col.1
    g := col.2.1
    b := col.2.2
    label := dense_label }

/-- The map update of the loop body for one point that was not skipped. -/
def buildMap (pca : Pca) (voxel_size : ℚ) (voxels : VoxelMap) (p col : Vector3d)
    (dense_label : Int) : VoxelMap :=
  let vox := get_voxel p.1 p.2.1 p.2.2 voxel_size
  if voxels.count vox > 0 then
    let vc := makeCenter p col dense_label voxel_size
    voxels.assign vox (insert_if_room pca (voxels.lookup vox) vc)
  else
    let container := SamplePointsContainer.new
    let vc := makeCenter p col dense_label voxel_size
    voxels.assign vox (insert_if_room pca container vc)

/-- One iteration of the loop `for (dense_idx = 0; dense_idx < dense_labels.size(); ...)`.
A read past the end of `points_` or `colors_` is `none`. -/
def loopBody (pca : Pca) (dense_pcd : PointCloud) (dense_labels : List Int)
    (has_label : Bool) (voxel_size : ℚ) (voxels : VoxelMap) (dense_idx : Nat) :
    Option VoxelMap :=
  match (if has_label then dense_labels[dense_idx]? else some 0) with
  | none => none
  | some dense_label =>
    if has_label && dense_label == 0 then some voxels
    else
      match dense_pcd.points_[dense_idx]?, dense_pcd.colors_[dense_idx]? with
      | some p, some col => some (buildMap pca voxel_size voxels p col dense_label)
      | _, _ => none

/-- The streaming pass: the loop over `dense_idx < dense_labels.size()`, from an empty map. -/
def streamingPass (pca : Pca) (dense_pcd : PointCloud) (dense_labels : List Int)
    (has_label : Bool) (voxel_size : ℚ) : Option VoxelMap :=
  (List.range dense_labels.length).foldlM
    (loopBody pca dense_pcd dense_labels has_label voxel_size) []

/-- The sweep `for (it = voxels.begin(); ...) it->second.resize()`. -/
def resizeSweep (pca : Pca) (voxels : VoxelMap) : VoxelMap :=
  voxels.map (fun e => (e.1, resize pca e.2))

/-- The line written for one stored `VoxelCenter`. -/
def outputLine (has_label : Bool) (p : VoxelCenter) : OutputLine :=
  { x := p.x, y := p.y, z := p.z, r := p.r, g := p.g, b := p.b
    label := if has_label then some p.label else none }

/-- The export loops: every slot of every container, in map order. -/
def exportLines (has_label : Bool) (voxels : VoxelMap) : List OutputLine :=
  (voxels.map (fun e => e.2.points_.map (outputLine has_label))).flatten

/-- The voxel map of `adaptive_sampling` after the streaming pass and the resize sweep.
The argument `labels_file` is `none` when `read_labels` throws (label file absent): then
`dense_labels` stays empty and `has_label` is false. -/
def sampledVoxels (pca : Pca) (dense_pcd : PointCloud) (labels_file : Option (List Int))
    (voxel_size : ℚ) : Option VoxelMap :=
  let dense_labels := labels_file.getD []
  let has_label := labels_file.isSome
  (streamingPass pca dense_pcd dense_labels has_label voxel_size).map (resizeSweep pca)

/-- The function `adaptive_sampling`: the lines written to the sparse file. -/
def adaptive_sampling (pca : Pca) (dense_pcd : PointCloud) (labels_file : Option (List Int))
    (voxel_size : ℚ) : Option (List OutputLine) :=
  (sampledVoxels pca dense_pcd labels_file voxel_size).map (exportLines labels_file.isSome)

/-! ## Labelled inputs given point by point -/

/-- One labelled input point: position, colour, label. -/
abbrev Row := Vector3d × Vector3d × Int

/-- The point cloud holding the positions and colours of `rows`. -/
def rowsCloud (rows : List Row) : PointCloud :=
  { points_ := rows.map (fun w => w.1), colors_ := rows.map (fun w => w.2.1) }

/-- The label file holding the labels of `rows`. -/
def rowsLabels (rows : List Row) : List Int := rows.map (fun w => w.2.2)

/-- The effect of one loop iteration on a labelled row. -/
def rowStep (pca : Pca) (voxel_size : ℚ) (voxels : VoxelMap) (w : Row) : VoxelMap :=
  if w.2.2 = 0 then voxels else buildMap pca voxel_size voxels w.1 w.2.1 w.2.2

/-- The slots of a container that `insert_if_room` has filled: the first `i` of `points_`. -/
def retained (c : SamplePointsContainer) : List VoxelCenter := c.points_.take c.i

/-! ## Auxiliary notions used in the statements -/

/-- The index that `get_voxel` produces on one axis, as a function of the floor `k` of
`c / voxel_size` (see `get_voxel_eq`). -/
def axisIndex (k : Int) : Int := if 0 ≤ k then k else k + 1

/-- The state of a reservoir between calls of `insert_if_room`: capacity 10 and either
still filling (`i < 10`, all ten slots allocated) or already cut down by the in-stream
`resize` (`i = 11`, one or four slots left). -/
def ReservoirShape (c : SamplePointsContainer) : Prop :=
  c.n = 10 ∧ ((c.i < 10 ∧ c.points_.length = 10) ∨
    (c.i = 11 ∧ (c.points_.length = 1 ∨ c.points_.length = 4)))

/-- A `VoxelCenter` at `(x, y, z)` with black colour and the given label. -/
def vcAt (x y z : ℚ) (label : Int) : VoxelCenter :=
  { x := x, y := y, z := z, r := 0, g := 0, b := 0, label := label }

/-- The positions of a list of stored points. -/
def positions (ps : List VoxelCenter) : List Vector3d := ps.map (fun p => (p.x, p.y, p.z))

/-- A reservoir that accepted the four corners of a tetrahedron. -/
def tetraReservoir : SamplePointsContainer :=
  [vcAt 0 0 0 7, vcAt 1 0 0 7, vcAt 0 1 0 7, vcAt 0 0 1 7].foldl
    (insert_if_room pclPca) SamplePointsContainer.new

/-- A reservoir that accepted three points. -/
def threeReservoir : SamplePointsContainer :=
  [vcAt 0 0 0 7, vcAt 1 0 0 7, vcAt 0 1 0 7].foldl
    (insert_if_room pclPca) SamplePointsContainer.new

/-- A reservoir that accepted two points. -/
def twoReservoir : SamplePointsContainer :=
  [vcAt 0 0 0 7, vcAt 1 0 0 7].foldl (insert_if_room pclPca) SamplePointsContainer.new

/-- A labelled input of five points: four around the origin (one of them with label 0)
and one far away. -/
def sampleRows : List Row :=
  [((-1 / 2, -1 / 2, -1 / 2), (1, 1, 1), 1), ((1 / 2, 1 / 2, 1 / 2), (0, 0, 0), 2),
   ((-1 / 2, 1 / 2, 1 / 2), (0, 0, 0), 0), ((1 / 2, -1 / 2, 1 / 2), (0, 0, 0), 4),
   ((5, 5, 5), (0, 0, 0), 4)]

/-- The strict lexicographic order on integer triples `(ix, iy, iz)`, written out from
its definition: the first differing component decides. -/
def lexLt (a b : Vector3i) : Prop :=
  a.1 < b.1 ∨ (a.1 = b.1 ∧ (a.2.1 < b.2.1 ∨ (a.2.1 = b.2.1 ∧ a.2.2 < b.2.2)))

/-- The entries of a map are in strictly increasing lexicographic key order. -/
def KeysSorted (voxels : VoxelMap) : Prop :=
  voxels.Pairwise (fun e1 e2 => lexLt e1.1 e2.1)

/-- The key that the loop body computes for a row. -/
def keyOf (voxel_size : ℚ) (w : Row) : Vector3i :=
  get_voxel w.1.1 w.1.2.1 w.1.2.2 voxel_size

/-- The `VoxelCenter` that the loop body builds for a row. -/
def centerOf (voxel_size : ℚ) (w : Row) : VoxelCenter :=
  makeCenter w.1 w.2.1 w.2.2 voxel_size

/-- The rows that are not skipped and whose key is `k`, in input order. -/
def rowsFor (voxel_size : ℚ) (rows : List Row) (k : Vector3i) : List Row :=
  rows.filter (fun w => decide (w.2.2 ≠ 0) && decide (keyOf voxel_size w = k))

/-- The candidates offered to the reservoir of key `k`, in input order. -/
def candidatesFor (voxel_size : ℚ) (rows : List Row) (k : Vector3i) : List VoxelCenter :=
  (rowsFor voxel_size rows k).map (centerOf voxel_size)

/-- The distinct keys of the rows that are not skipped. -/
def distinctKeys (voxel_size : ℚ) (rows : List Row) : List Vector3i :=
  ((rows.filter (fun w => decide (w.2.2 ≠ 0))).map (keyOf voxel_size)).dedup

/-- The map holds, in key order, one reservoir per key of a processed row, and each
reservoir is the result of offering the candidates of its key, in input order, to a fresh
container. -/
def Grouped (pca : Pca) (voxel_size : ℚ) (rows : List Row) (voxels : VoxelMap) : Prop :=
  KeysSorted voxels
  ∧ (∀ e ∈ voxels, candidatesFor voxel_size rows e.1 ≠ []
      ∧ e.2 = (candidatesFor voxel_size rows e.1).foldl (insert_if_room pca)
          SamplePointsContainer.new)
  ∧ (∀ k, candidatesFor voxel_size rows k ≠ [] → ∃ c, (k, c) ∈ voxels)

/-- Ten candidates on a line, one unit apart. -/
def tenCandidates : List VoxelCenter :=
  (List.range 10).map (fun k => vcAt (k : ℚ) 0 0 7)

/-- The distance scan of `insert_if_room` with every read `points_[j]` checked against the
current length of `points_`: `none` as soon as a read is out of range. -/
def dminLoopChecked (vc : VoxelCenter) (points_ : List VoxelCenter) (i : Nat) : Option ℚ :=
  (List.range i).foldlM
    (fun dmin j =>
      match points_[j]? with
      | some p =>
        let d := sqDist vc p
        some (if d < dmin then d else dmin)
      | none => none)
    10000000

/-- The method `insert_if_room` with every access to `points_` checked: the reads
`points_[j]` of the scan and the write `points_[i] = vc`. The result is `none` when an
access is out of range. -/
def insert_if_room_checked (pca : Pca) (c : SamplePointsContainer) (vc : VoxelCenter) :
    Option SamplePointsContainer :=
  if c.i < c.n then
    match dminLoopChecked vc c.points_ c.i with
    | none => none
    | some dmin =>
      if dmin > 1 / 1000 then
        if c.i < c.points_.length then
          some (capacityBlock pca { c with points_ := c.points_.set c.i vc, i := c.i + 1 })
        else none
      else some (capacityBlock pca c)
  else some (capacityBlock pca c)

/-- Two labelled points on either side of the origin. -/
def originRows : List Row :=
  [((-1 / 2, -1 / 2, -1 / 2), (1, 1, 1), 1), ((1 / 2, 1 / 2, 1 / 2), (0, 0, 0), 2)]

/-- The cube of a row: the triple of floors `floor(c / voxel_size)` of its position. -/
def cubeOf (voxel_size : ℚ) (w : Row) : Vector3i :=
  (⌊w.1.1 / voxel_size⌋, ⌊w.1.2.1 / voxel_size⌋, ⌊w.1.2.2 / voxel_size⌋)

/-- The position of a stored point. -/
def VoxelCenter.pos (p : VoxelCenter) : Vector3d := (p.x, p.y, p.z)

/-- The eight snapped positions that candidates of key `k` can have: per axis the floor is
the key component or the key component minus one. -/
def corners (voxel_size : ℚ) (k : Vector3i) : List Vector3d :=
  let x0 := (k.1 : ℚ) * voxel_size
  let x1 := ((k.1 : ℚ) - 1) * voxel_size
  let y0 := (k.2.1 : ℚ) * voxel_size
  let y1 := ((k.2.1 : ℚ) - 1) * voxel_size
  let z0 := (k.2.2 : ℚ) * voxel_size
  let z1 := ((k.2.2 : ℚ) - 1) * voxel_size
  [(x0, y0, z0), (x0, y0, z1), (x0, y1, z0), (x0, y1, z1),
   (x1, y0, z0), (x1, y0, z1), (x1, y1, z0), (x1, y1, z1)]

/-- The state of a reservoir of key `k` during the streaming pass: regular, below
capacity, retained points pairwise separated and all at one of the eight corners. -/
def CornerInv (voxel_size : ℚ) (k : Vector3i) (c : SamplePointsContainer) : Prop :=
  ReservoirShape c ∧ c.i < 10
  ∧ (retained c).Pairwise (fun p q => 1 / 1000 < sqDist p q)
  ∧ ∀ p ∈ retained c, p.pos ∈ corners voxel_size k

/-- Squared distance of two input positions. -/
def sqDistV (a b : Vector3d) : ℚ :=
  (a.1 - b.1) * (a.1 - b.1) + (a.2.1 - b.2.1) * (a.2.1 - b.2.1)
    + (a.2.2 - b.2.2) * (a.2.2 - b.2.2)

/-- Determinant of the three edge vectors from `p0` to `p1`, `p2`, `p3`: zero exactly when
the four points are coplanar. -/
def det4 (p0 p1 p2 p3 : Vector3d) : ℚ :=
  let u : Vector3d := (p1.1 - p0.1, p1.2.1 - p0.2.1, p1.2.2 - p0.2.2)
  let v : Vector3d := (p2.1 - p0.1, p2.2.1 - p0.2.1, p2.2.2 - p0.2.2)
  let w : Vector3d := (p3.1 - p0.1, p3.2.1 - p0.2.1, p3.2.2 - p0.2.2)
  u.1 * (v.2.1 * w.2.2 - v.2.2 * w.2.1) - u.2.1 * (v.1 * w.2.2 - v.2.2 * w.1)
    + u.2.2 * (v.1 * w.2.1 - v.2.1 * w.1)

/-- Ten points inside the cube `[0, 1)^3`, all with label 7: the eight points with
coordinates in `{1/10, 9/10}` and two points on the axis of the cube. -/
def cubeRows : List Row :=
  [((1 / 10, 1 / 10, 1 / 10), (1, 0, 0), 7), ((9 / 10, 1 / 10, 1 / 10), (0, 1, 0), 7),
   ((1 / 10, 9 / 10, 1 / 10), (0, 0, 1), 7), ((1 / 10, 1 / 10, 9 / 10), (0, 0, 0), 7),
   ((9 / 10, 9 / 10, 1 / 10), (0, 0, 0), 7), ((9 / 10, 1 / 10, 9 / 10), (0, 0, 0), 7),
   ((1 / 10, 9 / 10, 9 / 10), (0, 0, 0), 7), ((9 / 10, 9 / 10, 9 / 10), (0, 0, 0), 7),
   ((1 / 2, 1 / 2, 1 / 10), (0, 0, 0), 7), ((1 / 2, 1 / 2, 9 / 10), (0, 0, 0), 7)]

/-! ## The 32-bit key -/

/-- A value is representable in the 32-bit `int` of the key type. -/
abbrev fitsInt32 (k : Int) : Prop := -2147483648 ≤ k ∧ k ≤ 2147483647

/-- Conversion of a `double` to the 32-bit `int`: truncation toward zero when the truncated
value is representable. Otherwise the conversion is undefined in C++; the x86-64 conversion
instruction then yields `INT_MIN`, which is the value taken here. -/
def toInt32 (d : ℚ) : Int := if fitsInt32 (toInt d) then toInt d else -2147483648

/-- The function `get_voxel` with the 32-bit conversion of each index. -/
def get_voxel32 (x y z voxel_size : ℚ) : Vector3i :=
  let x_index := toInt32 ((⌊x / voxel_size⌋ : ℚ) + 1 / 2)
  let y_index := toInt32 ((⌊y / voxel_size⌋ : ℚ) + 1 / 2)
  let z_index := toInt32 ((⌊z / voxel_size⌋ : ℚ) + 1 / 2)
  (x_index, y_index, z_index)

/-- The map update of the loop body for one point that was not skipped, with the 32-bit
key. -/
def buildMap32 (pca : Pca) (voxel_size : ℚ) (voxels : VoxelMap) (p col : Vector3d)
    (dense_label : Int) : VoxelMap :=
  let vox := get_voxel32 p.1 p.2.1 p.2.2 voxel_size
  if voxels.count vox > 0 then
    let vc := makeCenter p col dense_label voxel_size
    voxels.assign vox (insert_if_room pca (voxels.lookup vox) vc)
  else
    let container := SamplePointsContainer.new
    let vc := makeCenter p col dense_label voxel_size
    voxels.assign vox (insert_if_room pca container vc)

/-- One iteration of the loop over `dense_idx`, with the 32-bit key. -/
def loopBody32 (pca : Pca) (dense_pcd : PointCloud) (dense_labels : List Int)
    (has_label : Bool) (voxel_size : ℚ) (voxels : VoxelMap) (dense_idx : Nat) :
    Option VoxelMap :=
  match (if has_label then dense_labels[dense_idx]? else some 0) with
  | none => none
  | some dense_label =>
    if has_label && dense_label == 0 then some voxels
    else
      match dense_pcd.points_[dense_idx]?, dense_pcd.colors_[dense_idx]? with
      | some p, some col => some (buildMap32 pca voxel_size voxels p col dense_label)
      | _, _ => none

/-- The streaming pass with the 32-bit key. -/
def streamingPass32 (pca : Pca) (dense_pcd : PointCloud) (dense_labels : List Int)
    (has_label : Bool) (voxel_size : ℚ) : Option VoxelMap :=
  (List.range dense_labels.length).foldlM
    (loopBody32 pca dense_pcd dense_labels has_label voxel_size) []

/-- The effect of one loop iteration with the 32-bit key on a labelled row. -/
def rowStep32 (pca : Pca) (voxel_size : ℚ) (voxels : VoxelMap) (w : Row) : VoxelMap :=
  if w.2.2 = 0 then voxels else buildMap32 pca voxel_size voxels w.1 w.2.1 w.2.2

/-- Eleven labelled points on the first axis, at `x = 2, 3, ..., 12`. -/
def overflowRows : List Row :=
  (List.range 11).map (fun k => ((((k : ℚ) + 2), 0, 0), (0, 0, 0), 1))

/-! ## Voxel keys: what `get_voxel` computes -/

/-- Truncating an integer plus one half: the integer itself when it is not negative,
the next integer when it is negative. -/
theorem toInt_int_add_half (k : Int) :
    toInt ((k : ℚ) + 1 / 2) = if 0 ≤ k then k else k + 1 := by
  unfold toInt
  by_cases hk : 0 ≤ k
  · have hq : (0 : ℚ) ≤ (k : ℚ) + 1 / 2 := by
      have : (0 : ℚ) ≤ (k : ℚ) := by exact_mod_cast hk
      linarith
    rw [if_pos hq, if_pos hk, Int.floor_eq_iff]
    constructor <;> linarith
  · have hk1 : k + 1 ≤ 0 := by omega
    have hq : ¬ (0 : ℚ) ≤ (k : ℚ) + 1 / 2 := by
      have : ((k + 1 : Int) : ℚ) ≤ 0 := by exact_mod_cast hk1
      push_cast at this
      linarith
    rw [if_neg hq, if_neg hk, Int.ceil_eq_iff]
    push_cast
    constructor <;> linarith

/-- Closed form of `get_voxel`: each axis is the floor when the floor is not negative
and the floor plus one when it is negative. -/
theorem get_voxel_eq (x y z voxel_size : ℚ) :
    get_voxel x y z voxel_size =
      (axisIndex ⌊x / voxel_size⌋, axisIndex ⌊y / voxel_size⌋, axisIndex ⌊z / voxel_size⌋) := by
  simp only [get_voxel, toInt_int_add_half, axisIndex]

/-- C1 (code defect): `get_voxel` returns the triple of floors exactly when no floor is
negative; at `(-1/2, -1/2, -1/2)` with `voxel_size = 1` every floor is `-1` and the key
returned is `(0, 0, 0)`. -/
theorem C1_get_voxel_is_floor_only_when_nonnegative :
    (∀ x y z voxel_size : ℚ,
      get_voxel x y z voxel_size = (⌊x / voxel_size⌋, ⌊y / voxel_size⌋, ⌊z / voxel_size⌋)
        ↔ (0 ≤ ⌊x / voxel_size⌋ ∧ 0 ≤ ⌊y / voxel_size⌋ ∧ 0 ≤ ⌊z / voxel_size⌋))
    ∧ get_voxel (-1 / 2) (-1 / 2) (-1 / 2) 1 = (0, 0, 0)
    ∧ ((⌊(-1 / 2 : ℚ) / 1⌋, ⌊(-1 / 2 : ℚ) / 1⌋, ⌊(-1 / 2 : ℚ) / 1⌋) : Vector3i) = (-1, -1, -1) := by
  refine ⟨?_, by decide!, by decide!⟩
  intro x y z s
  rw [get_voxel_eq]
  simp only [axisIndex, Prod.mk.injEq]
  constructor
  · rintro ⟨hx, hy, hz⟩
    refine ⟨?_, ?_, ?_⟩
    · by_contra h
      rw [if_neg h] at hx
      omega
    · by_contra h
      rw [if_neg h] at hy
      omega
    · by_contra h
      rw [if_neg h] at hz
      omega
  · rintro ⟨hx, hy, hz⟩
    simp [hx, hy, hz]

/-- C2 (code defect): with `voxel_size = 1` the points `(-1/2, 0, 0)` and `(1/2, 0, 0)`
receive the same key although their floors on the first axis are `-1` and `0`. -/
theorem C2_same_key_for_different_cubes :
    get_voxel (-1 / 2) 0 0 1 = get_voxel (1 / 2) 0 0 1
    ∧ ⌊(-1 / 2 : ℚ) / 1⌋ = -1 ∧ ⌊(1 / 2 : ℚ) / 1⌋ = 0 := by
  decide!

/-! ## The streaming pass on a labelled input -/

/-- On a labelled input given row by row, the iteration at the index of row `w` performs
`rowStep` on `w`. -/
theorem loopBody_rows (pca : Pca) (rows : List Row) (voxel_size : ℚ) (voxels : VoxelMap)
    (idx : Nat) (w : Row) (h : rows[idx]? = some w) :
    loopBody pca (rowsCloud rows) (rowsLabels rows) true voxel_size voxels idx
      = some (rowStep pca voxel_size voxels w) := by
  simp only [loopBody, rowsCloud, rowsLabels, rowStep, List.getElem?_map, h, Option.map_some',
    if_true, Bool.true_and, beq_iff_eq]
  by_cases h0 : w.2.2 = 0 <;> simp [h0]

/-- The loop over the indices of the rows `ws` that follow a prefix `pre`. -/
theorem foldlM_loopBody_rows (pca : Pca) (voxel_size : ℚ) (ws : List Row) :
    ∀ (pre : List Row) (voxels : VoxelMap),
      (List.range' pre.length ws.length).foldlM
          (loopBody pca (rowsCloud (pre ++ ws)) (rowsLabels (pre ++ ws)) true voxel_size) voxels
        = some (ws.foldl (rowStep pca voxel_size) voxels) := by
  induction ws with
  | nil => intro pre voxels; simp [List.range']
  | cons w ws ih =>
    intro pre voxels
    have hget : (pre ++ w :: ws)[pre.length]? = some w := by
      rw [List.getElem?_append_right (Nat.le_refl _)]
      simp
    have hassoc : pre ++ w :: ws = (pre ++ [w]) ++ ws := by simp
    have hlen : (pre ++ [w]).length = pre.length + 1 := by simp
    simp only [List.length_cons, List.range'_succ, List.foldlM_cons, List.foldl_cons]
    rw [loopBody_rows pca _ voxel_size voxels _ w hget]
    have := ih (pre ++ [w]) (rowStep pca voxel_size voxels w)
    rw [hlen, ← hassoc] at this
    simpa using this

/-- The streaming pass over a labelled input never fails and is the left fold of
`rowStep` over the rows. -/
theorem streamingPass_rows (pca : Pca) (rows : List Row) (voxel_size : ℚ) :
    streamingPass pca (rowsCloud rows) (rowsLabels rows) true voxel_size
      = some (rows.foldl (rowStep pca voxel_size) []) := by
  have h := foldlM_loopBody_rows pca voxel_size rows [] []
  simp only [List.length_nil, List.nil_append] at h
  unfold streamingPass
  rw [List.range_eq_range']
  simpa [rowsLabels] using h

/-- Rows with label 0 can be dropped from the fold. -/
theorem foldl_rowStep_filter (pca : Pca) (voxel_size : ℚ) (rows : List Row) :
    ∀ voxels : VoxelMap,
      rows.foldl (rowStep pca voxel_size) voxels
        = (rows.filter (fun w => decide (w.2.2 ≠ 0))).foldl (rowStep pca voxel_size) voxels := by
  induction rows with
  | nil => intro voxels; rfl
  | cons w ws ih =>
    intro voxels
    by_cases h0 : w.2.2 = 0
    · simp only [List.foldl_cons, rowStep, if_pos h0]
      rw [List.filter_cons_of_neg (by simp [h0])]
      exact ih voxels
    · rw [List.filter_cons_of_pos (by simp [h0])]
      simp only [List.foldl_cons]
      exact ih _

/-- Rows that all carry label 0 leave the map untouched. -/
theorem foldl_rowStep_all_zero (pca : Pca) (voxel_size : ℚ) (rows : List Row) :
    ∀ voxels : VoxelMap,
      (rows.map (fun w => ((w.1, w.2.1, 0) : Row))).foldl (rowStep pca voxel_size) voxels
        = voxels := by
  induction rows with
  | nil => intro voxels; rfl
  | cons w ws ih =>
    intro voxels
    simp only [List.map_cons, List.foldl_cons, rowStep, if_true]
    exact ih voxels

/-- C3: in a labelled run the map after the streaming pass, the map after the resize
sweep and the emitted lines are those of the input with the label-0 rows removed, the run
returns, and an input whose labels are all 0 emits nothing. -/
theorem C3_label_zero_rows_have_no_influence (pca : Pca) (rows : List Row) (voxel_size : ℚ) :
    streamingPass pca (rowsCloud rows) (rowsLabels rows) true voxel_size
      = streamingPass pca (rowsCloud (rows.filter (fun w => decide (w.2.2 ≠ 0))))
          (rowsLabels (rows.filter (fun w => decide (w.2.2 ≠ 0)))) true voxel_size
    ∧ sampledVoxels pca (rowsCloud rows) (some (rowsLabels rows)) voxel_size
      = sampledVoxels pca (rowsCloud (rows.filter (fun w => decide (w.2.2 ≠ 0))))
          (some (rowsLabels (rows.filter (fun w => decide (w.2.2 ≠ 0))))) voxel_size
    ∧ adaptive_sampling pca (rowsCloud rows) (some (rowsLabels rows)) voxel_size
      = adaptive_sampling pca (rowsCloud (rows.filter (fun w => decide (w.2.2 ≠ 0))))
          (some (rowsLabels (rows.filter (fun w => decide (w.2.2 ≠ 0))))) voxel_size
    ∧ (adaptive_sampling pca (rowsCloud rows) (some (rowsLabels rows)) voxel_size).isSome = true
    ∧ adaptive_sampling pca (rowsCloud (rows.map (fun w => ((w.1, w.2.1, 0) : Row))))
          (some (rowsLabels (rows.map (fun w => ((w.1, w.2.1, 0) : Row))))) voxel_size
        = some [] := by
  have hpass : streamingPass pca (rowsCloud rows) (rowsLabels rows) true voxel_size
      = streamingPass pca (rowsCloud (rows.filter (fun w => decide (w.2.2 ≠ 0))))
          (rowsLabels (rows.filter (fun w => decide (w.2.2 ≠ 0)))) true voxel_size := by
    rw [streamingPass_rows, streamingPass_rows, foldl_rowStep_filter]
  refine ⟨hpass, ?_, ?_, ?_, ?_⟩
  · simp only [sampledVoxels, Option.getD_some, Option.isSome_some, hpass]
  · simp only [adaptive_sampling, sampledVoxels, Option.getD_some, Option.isSome_some, hpass]
  · simp [adaptive_sampling, sampledVoxels, streamingPass_rows]
  · simp [adaptive_sampling, sampledVoxels, streamingPass_rows, foldl_rowStep_all_zero,
      resizeSweep, exportLines]

/-- C5 (code defect): without a label file the loop bound `dense_labels.size()` is 0, so
no point is processed and no line is emitted, whatever the point cloud. -/
theorem C5_unlabelled_run_emits_nothing (pca : Pca) (dense_pcd : PointCloud) (voxel_size : ℚ) :
    streamingPass pca dense_pcd [] false voxel_size = some []
    ∧ adaptive_sampling pca dense_pcd none voxel_size = some [] := by
  constructor
  · rfl
  · rfl

/-! ## The distance scan of `insert_if_room` -/

/-- A running minimum stays above `t` exactly when its start and every scanned value do. -/
theorem foldl_min_gt (t : ℚ) (f : Nat → ℚ) (l : List Nat) :
    ∀ d0 : ℚ, t < l.foldl (fun dmin j => if f j < dmin then f j else dmin) d0
      ↔ (t < d0 ∧ ∀ j ∈ l, t < f j) := by
  induction l with
  | nil => intro d0; simp
  | cons a l ih =>
    intro d0
    simp only [List.foldl_cons, List.mem_cons, forall_eq_or_imp]
    rw [ih]
    by_cases h : f a < d0
    · rw [if_pos h]
      constructor
      · rintro ⟨h1, h2⟩
        exact ⟨lt_trans h1 h, h1, h2⟩
      · rintro ⟨_, h1, h2⟩
        exact ⟨h1, h2⟩
    · rw [if_neg h]
      constructor
      · rintro ⟨h1, h2⟩
        exact ⟨h1, lt_of_lt_of_le h1 (not_lt.mp h), h2⟩
      · rintro ⟨h1, _, h2⟩
        exact ⟨h1, h2⟩

/-- The scan ends above the threshold exactly when every scanned slot is farther than the
threshold from the candidate. -/
theorem dminLoop_gt (vc : VoxelCenter) (points_ : List VoxelCenter) (i : Nat) :
    1 / 1000 < dminLoop vc points_ i
      ↔ ∀ j, j < i → 1 / 1000 < sqDist vc (points_.getD j VoxelCenter.zero) := by
  unfold dminLoop
  rw [foldl_min_gt (1 / 1000) (fun j => sqDist vc (points_.getD j VoxelCenter.zero))]
  simp only [List.mem_range]
  constructor
  · rintro ⟨_, h⟩
    exact h
  · intro h
    exact ⟨by norm_num, h⟩

/-- Scanning the slots below `i` is scanning the retained points. -/
theorem forall_slots_iff_retained (P : VoxelCenter → Prop) (points_ : List VoxelCenter)
    (i : Nat) (hi : i ≤ points_.length) :
    (∀ j, j < i → P (points_.getD j VoxelCenter.zero)) ↔ ∀ p ∈ points_.take i, P p := by
  constructor
  · intro h p hp
    obtain ⟨j, hj, rfl⟩ := List.getElem_of_mem hp
    have hj2 : j < i := by
      have := hj
      simp only [List.length_take] at this
      omega
    have hj3 : j < points_.length := by omega
    have := h j hj2
    rw [List.getD_eq_getElem _ _ hj3] at this
    simpa [List.getElem_take] using this
  · intro h j hj
    have hj3 : j < points_.length := by omega
    rw [List.getD_eq_getElem _ _ hj3]
    apply h
    have hj4 : j < (points_.take i).length := by
      simp only [List.length_take]
      omega
    have : (points_.take i)[j] = points_[j] := by simp [List.getElem_take]
    rw [← this]
    exact List.getElem_mem hj4

/-- The acceptance test of `insert_if_room` in terms of the retained points. -/
theorem accept_test_iff (c : SamplePointsContainer) (vc : VoxelCenter)
    (hi : c.i ≤ c.points_.length) :
    dminLoop vc c.points_ c.i > 1 / 1000 ↔ ∀ p ∈ retained c, 1 / 1000 < sqDist vc p := by
  rw [gt_iff_lt, dminLoop_gt]
  exact forall_slots_iff_retained (fun p => 1 / 1000 < sqDist vc p) _ _ hi

/-! ## `std::vector::resize` and `resize` -/

/-- Shrinking (or keeping) a vector keeps its first `k` elements. -/
theorem vecResize_of_le (v : List VoxelCenter) (k : Nat) (h : k ≤ v.length) :
    vecResize v k = v.take k := by
  unfold vecResize
  rw [Nat.sub_eq_zero_of_le h]
  simp

/-- Below three accepted points `resize` only truncates to the counter. -/
theorem resize_of_lt_three (pca : Pca) (c : SamplePointsContainer) (hi : c.i < 3) :
    resize pca c = { c with points_ := vecResize c.points_ c.i } := by
  unfold resize
  rw [if_pos hi]

/-- From three accepted points on `resize` asks the PCA about the default cloud and keeps
four slots or one. -/
theorem resize_of_three_le (pca : Pca) (c : SamplePointsContainer) (hi : 3 ≤ c.i) :
    resize pca c = { c with
      points_ := vecResize c.points_
        (if pca (List.replicate c.n pclPointDefault) (1 / 100000) then 4 else 1) } := by
  unfold resize
  rw [if_neg (by omega)]
  simp only [Nat.mul_one]
  split <;> rfl

/-- C8: with fewer than three retained points `resize` leaves exactly the retained points,
in order, keeps the counter, and its result does not depend on the PCA routine. -/
theorem C8_resize_fewer_than_three (pca : Pca) (c : SamplePointsContainer) (hi : c.i < 3)
    (hlen : c.i ≤ c.points_.length) :
    resize pca c = { c with points_ := retained c }
    ∧ (resize pca c).points_ = c.points_.take c.i
    ∧ (resize pca c).points_.length = c.i
    ∧ (resize pca c).i = c.i
    ∧ ∀ pca2 : Pca, resize pca2 c = resize pca c := by
  have h := resize_of_lt_three pca c hi
  rw [vecResize_of_le _ _ hlen] at h
  refine ⟨h, ?_, ?_, ?_, ?_⟩
  · rw [h]
  · rw [h]
    simp only [List.length_take]
    omega
  · rw [h]
  · intro pca2
    rw [resize_of_lt_three pca2 c hi, resize_of_lt_three pca c hi]

/-- C8 at a reservoir holding two points. -/
theorem C8_resize_fewer_than_three_witness :
    twoReservoir.i < 3 ∧ twoReservoir.i ≤ twoReservoir.points_.length
    ∧ (resize pclPca twoReservoir).points_ = [vcAt 0 0 0 7, vcAt 1 0 0 7] := by
  have hi : twoReservoir.i < 3 := by decide!
  have hlen : twoReservoir.i ≤ twoReservoir.points_.length := by decide!
  refine ⟨hi, hlen, ?_⟩
  rw [(C8_resize_fewer_than_three pclPca twoReservoir hi hlen).2.1]
  decide!

/-! ## `insert_if_room` -/

/-- The first block of `insert_if_room` on a reservoir whose slots below the capacity are
allocated: the candidate is stored exactly when it is farther than the threshold from
every retained point. -/
theorem acceptBlock_eq (c : SamplePointsContainer) (vc : VoxelCenter)
    (hin : c.i < c.n) (hlen : c.i ≤ c.points_.length) :
    acceptBlock c vc
      = if ∀ p ∈ retained c, 1 / 1000 < sqDist vc p then
          { c with points_ := c.points_.set c.i vc, i := c.i + 1 }
        else c := by
  unfold acceptBlock
  rw [if_pos hin]
  simp only [accept_test_iff c vc hlen]

/-- A store into slot `k` does not touch the first `k` slots. -/
theorem take_set_self (l : List VoxelCenter) (k : Nat) (a : VoxelCenter) :
    (l.set k a).take k = l.take k := by
  apply List.ext_getElem?
  intro j
  rw [List.getElem?_take, List.getElem?_take]
  split
  · rw [List.getElem?_set_ne (by omega)]
  · rfl

/-- The retained points after a store into slot `i`. -/
theorem retained_store (c : SamplePointsContainer) (vc : VoxelCenter)
    (hlen : c.i < c.points_.length) :
    retained { c with points_ := c.points_.set c.i vc, i := c.i + 1 } = retained c ++ [vc] := by
  simp only [retained]
  rw [List.take_succ]
  rw [take_set_self]
  rw [List.getElem?_set_self hlen]
  rfl

/-- The second block does nothing below capacity. -/
theorem capacityBlock_of_ne (pca : Pca) (c : SamplePointsContainer) (h : c.i ≠ c.n) :
    capacityBlock pca c = c := by
  unfold capacityBlock
  rw [if_neg h]

/-- The second block at capacity: `resize` on the default cloud, then the counter moves
to `n + 1`. -/
theorem capacityBlock_of_eq (pca : Pca) (c : SamplePointsContainer) (h : c.i = c.n)
    (h3 : 3 ≤ c.i) :
    capacityBlock pca c = { c with
      points_ := vecResize c.points_
        (if pca (List.replicate c.n pclPointDefault) (1 / 100000) then 4 else 1)
      i := c.i + 1 } := by
  unfold capacityBlock
  rw [if_pos h, resize_of_three_le pca c h3]

/-- A reservoir whose counter passed the capacity ignores every candidate. -/
theorem insert_if_room_of_gt (pca : Pca) (c : SamplePointsContainer) (vc : VoxelCenter)
    (h : c.n < c.i) : insert_if_room pca c vc = c := by
  unfold insert_if_room acceptBlock
  rw [if_neg (by omega)]
  exact capacityBlock_of_ne pca c (by omega)

/-- A rejected candidate leaves a filling reservoir as it is. -/
theorem insert_if_room_of_reject (pca : Pca) (c : SamplePointsContainer) (vc : VoxelCenter)
    (hin : c.i < c.n) (hlen : c.i ≤ c.points_.length)
    (hrej : ¬ ∀ p ∈ retained c, 1 / 1000 < sqDist vc p) :
    insert_if_room pca c vc = c := by
  unfold insert_if_room
  rw [acceptBlock_eq c vc hin hlen, if_neg hrej]
  exact capacityBlock_of_ne pca c (by omega)

/-- An accepted candidate below the last slot is stored and the counter moves by one. -/
theorem insert_if_room_of_accept (pca : Pca) (c : SamplePointsContainer) (vc : VoxelCenter)
    (hin : c.i + 1 < c.n) (hlen : c.i ≤ c.points_.length)
    (hacc : ∀ p ∈ retained c, 1 / 1000 < sqDist vc p) :
    insert_if_room pca c vc = { c with points_ := c.points_.set c.i vc, i := c.i + 1 } := by
  unfold insert_if_room
  rw [acceptBlock_eq c vc (by omega) hlen, if_pos hacc]
  apply capacityBlock_of_ne
  simp only
  omega

/-- An accepted candidate in the last slot triggers the in-stream `resize`. -/
theorem insert_if_room_of_accept_last (pca : Pca) (c : SamplePointsContainer)
    (vc : VoxelCenter) (hin : c.i + 1 = c.n) (h3 : 2 ≤ c.i) (hlen : c.i ≤ c.points_.length)
    (hacc : ∀ p ∈ retained c, 1 / 1000 < sqDist vc p) :
    insert_if_room pca c vc = { c with
      points_ := vecResize (c.points_.set c.i vc)
        (if pca (List.replicate c.n pclPointDefault) (1 / 100000) then 4 else 1)
      i := c.i + 2 } := by
  unfold insert_if_room
  rw [acceptBlock_eq c vc (by omega) hlen, if_pos hacc]
  rw [capacityBlock_of_eq pca _ (by simp only; omega) (by simp only; omega)]

/-- C10: on a reservoir that is still filling (capacity 10, ten slots, `i < 10`) the
acceptance block stores the candidate in slot `i` and increments the counter exactly when
`i = 0` or every retained point is at squared distance above 1/1000 from the candidate
(that is, the minimum squared distance exceeds 1/1000); otherwise points and counter are
unchanged. For the whole call: a rejection returns the reservoir unchanged, an acceptance
below slot 9 returns the stored state, and an acceptance in slot 9 is followed by the
capacity block. -/
theorem C10_acceptance_rule (pca : Pca) (c : SamplePointsContainer) (vc : VoxelCenter)
    (hn : c.n = 10) (hlen : c.points_.length = 10) (hi : c.i < 10) :
    acceptBlock c vc
      = (if c.i = 0 ∨ ∀ p ∈ retained c, 1 / 1000 < sqDist vc p then
          { c with points_ := c.points_.set c.i vc, i := c.i + 1 }
        else c)
    ∧ ((c.i = 0 ∨ ∀ p ∈ retained c, 1 / 1000 < sqDist vc p) →
        (acceptBlock c vc).points_[c.i]? = some vc
        ∧ (acceptBlock c vc).i = c.i + 1
        ∧ retained (acceptBlock c vc) = retained c ++ [vc])
    ∧ (¬ (c.i = 0 ∨ ∀ p ∈ retained c, 1 / 1000 < sqDist vc p) →
        acceptBlock c vc = c ∧ insert_if_room pca c vc = c)
    ∧ (c.i + 1 < 10 → insert_if_room pca c vc = acceptBlock c vc)
    ∧ (c.i + 1 = 10 → insert_if_room pca c vc = capacityBlock pca (acceptBlock c vc)) := by
  have hcond : (c.i = 0 ∨ ∀ p ∈ retained c, 1 / 1000 < sqDist vc p)
      ↔ ∀ p ∈ retained c, 1 / 1000 < sqDist vc p := by
    constructor
    · rintro (h0 | h)
      · intro p hp
        simp [retained, h0] at hp
      · exact h
    · intro h
      exact Or.inr h
  have hblock := acceptBlock_eq c vc (by omega) (by omega)
  refine ⟨?_, ?_, ?_, ?_, ?_⟩
  · rw [hblock]
    simp only [hcond]
  · intro h
    rw [hblock, if_pos (hcond.mp h)]
    refine ⟨?_, rfl, retained_store c vc (by omega)⟩
    simp only
    rw [List.getElem?_set_self (by omega)]
  · intro h
    have h2 := fun hh => h (hcond.mpr hh)
    refine ⟨?_, insert_if_room_of_reject pca c vc (by omega) (by omega) h2⟩
    rw [hblock, if_neg h2]
  · intro h
    unfold insert_if_room
    apply capacityBlock_of_ne
    rw [hblock]
    split
    · simp only
      omega
    · omega
  · intro _
    rfl

/-- C10 at a reservoir holding two points and a candidate far from both. -/
theorem C10_acceptance_rule_witness :
    twoReservoir.n = 10 ∧ twoReservoir.points_.length = 10 ∧ twoReservoir.i < 10
    ∧ insert_if_room pclPca twoReservoir (vcAt 0 1 0 7) = threeReservoir
    ∧ insert_if_room pclPca twoReservoir (vcAt 1 0 0 3) = twoReservoir := by
  have hn : twoReservoir.n = 10 := by decide!
  have hlen : twoReservoir.points_.length = 10 := by decide!
  have hi : twoReservoir.i < 10 := by decide!
  have h := C10_acceptance_rule pclPca twoReservoir (vcAt 0 1 0 7) hn hlen hi
  refine ⟨hn, hlen, hi, ?_, ?_⟩
  · rw [h.2.2.2.1 (by decide!), h.1]
    decide!
  · exact ((C10_acceptance_rule pclPca twoReservoir (vcAt 1 0 0 3) hn hlen hi).2.2.1
      (by decide!)).2

/-- The three outcomes of `insert_if_room` on a reservoir in one of its regular states:
nothing changes; the candidate is stored below the last slot; or the candidate fills the
last slot and the in-stream `resize` keeps the first slot or the first four. -/
theorem insert_if_room_cases (pca : Pca) (c : SamplePointsContainer) (vc : VoxelCenter)
    (h : ReservoirShape c) :
    insert_if_room pca c vc = c
    ∨ ((∀ p ∈ retained c, 1 / 1000 < sqDist vc p) ∧ c.i + 1 < 10
        ∧ insert_if_room pca c vc
            = { c with points_ := c.points_.set c.i vc, i := c.i + 1 })
    ∨ ((∀ p ∈ retained c, 1 / 1000 < sqDist vc p) ∧ c.i = 9
        ∧ ∃ k, (k = 1 ∨ k = 4) ∧ insert_if_room pca c vc
            = { c with points_ := (c.points_.set c.i vc).take k, i := 11 }) := by
  obtain ⟨hn, hfill | hfull⟩ := h
  · obtain ⟨hi, hlen⟩ := hfill
    by_cases hacc : ∀ p ∈ retained c, 1 / 1000 < sqDist vc p
    · by_cases hlast : c.i + 1 < 10
      · right; left
        exact ⟨hacc, hlast, insert_if_room_of_accept pca c vc (by omega) (by omega) hacc⟩
      · right; right
        have h9 : c.i = 9 := by omega
        refine ⟨hacc, h9, ?_⟩
        have hins := insert_if_room_of_accept_last pca c vc (by omega) (by omega) (by omega) hacc
        by_cases hp : pca (List.replicate c.n pclPointDefault) (1 / 100000) = true
        · refine ⟨4, Or.inr rfl, ?_⟩
          rw [hins, if_pos hp, vecResize_of_le _ _ (by rw [List.length_set]; omega), h9]
        · refine ⟨1, Or.inl rfl, ?_⟩
          rw [hins, if_neg hp, vecResize_of_le _ _ (by rw [List.length_set]; omega), h9]
    · left
      exact insert_if_room_of_reject pca c vc (by omega) (by omega) hacc
  · left
    exact insert_if_room_of_gt pca c vc (by omega)

/-- A fresh reservoir is in a regular state. -/
theorem reservoirShape_new : ReservoirShape SamplePointsContainer.new := by
  refine ⟨rfl, Or.inl ⟨?_, ?_⟩⟩
  · show (0 : Nat) < 10
    omega
  · show (List.replicate 10 VoxelCenter.zero).length = 10
    simp

/-- The regular states are closed under `insert_if_room`. -/
theorem reservoirShape_insert (pca : Pca) (c : SamplePointsContainer) (vc : VoxelCenter)
    (h : ReservoirShape c) : ReservoirShape (insert_if_room pca c vc) := by
  rcases insert_if_room_cases pca c vc h with h1 | ⟨_, hlt, h2⟩ | ⟨_, h9, k, hk, h3⟩
  · rw [h1]; exact h
  · rw [h2]
    obtain ⟨hn, hfill | hfull⟩ := h
    · exact ⟨hn, Or.inl ⟨hlt, by simpa using hfill.2⟩⟩
    · omega
  · rw [h3]
    obtain ⟨hn, hfill | hfull⟩ := h
    · refine ⟨hn, Or.inr ⟨rfl, ?_⟩⟩
      have hl : (c.points_.set c.i vc).length = 10 := by simpa using hfill.2
      simp only [List.length_take, hl]
      rcases hk with rfl | rfl
      · left; rfl
      · right; rfl
    · omega

/-- Every state reached from a fresh reservoir by `insert_if_room` calls is regular. -/
theorem reservoirShape_foldl (pca : Pca) (vcs : List VoxelCenter) :
    ∀ c, ReservoirShape c → ReservoirShape (vcs.foldl (insert_if_room pca) c) := by
  induction vcs with
  | nil => intro c h; exact h
  | cons vc vcs ih =>
    intro c h
    exact ih _ (reservoirShape_insert pca c vc h)

/-- After a call the retained points are the old ones, or a sublist of the old ones
followed by the candidate, which then was farther than the threshold from each of them. -/
theorem retained_insert (pca : Pca) (c : SamplePointsContainer) (vc : VoxelCenter)
    (h : ReservoirShape c) :
    retained (insert_if_room pca c vc) = retained c
    ∨ ((∀ p ∈ retained c, 1 / 1000 < sqDist vc p)
        ∧ (retained (insert_if_room pca c vc)).Sublist (retained c ++ [vc])) := by
  rcases insert_if_room_cases pca c vc h with h1 | ⟨hacc, hlt, h2⟩ | ⟨hacc, h9, k, hk, h3⟩
  · left; rw [h1]
  · right
    refine ⟨hacc, ?_⟩
    obtain ⟨hn, hfill | hfull⟩ := h
    · rw [h2, retained_store c vc (by omega)]
    · omega
  · right
    refine ⟨hacc, ?_⟩
    obtain ⟨hn, hfill | hfull⟩ := h
    · rw [h3, ← retained_store c vc (by omega)]
      simp only [retained, List.take_take]
      have hl : (c.points_.set c.i vc).length = 10 := by simpa using hfill.2
      have : (c.points_.set c.i vc).take (c.i + 1) = c.points_.set c.i vc := by
        apply List.take_of_length_le
        omega
      rw [this]
      exact List.take_sublist _ _
    · omega

/-- The squared distance is symmetric. -/
theorem sqDist_comm (p q : VoxelCenter) : sqDist p q = sqDist q p := by
  unfold sqDist
  ring

/-- A point is at squared distance 0 from itself. -/
theorem sqDist_self (p : VoxelCenter) : sqDist p p = 0 := by
  unfold sqDist
  ring

/-- Pairwise separation of the retained points is kept by `insert_if_room`. -/
theorem pairwise_insert (pca : Pca) (c : SamplePointsContainer) (vc : VoxelCenter)
    (h : ReservoirShape c)
    (hp : (retained c).Pairwise (fun p q => 1 / 1000 < sqDist p q)) :
    (retained (insert_if_room pca c vc)).Pairwise (fun p q => 1 / 1000 < sqDist p q) := by
  rcases retained_insert pca c vc h with h1 | ⟨hacc, hsub⟩
  · rw [h1]; exact hp
  · apply List.Pairwise.sublist hsub
    rw [List.pairwise_append]
    refine ⟨hp, List.pairwise_singleton _ _, ?_⟩
    intro p hpm q hq
    rw [List.mem_singleton] at hq
    rw [hq, sqDist_comm]
    exact hacc p hpm

/-- Pairwise separation holds in every state reached by `insert_if_room` calls. -/
theorem pairwise_foldl (pca : Pca) (vcs : List VoxelCenter) :
    ∀ c, ReservoirShape c → (retained c).Pairwise (fun p q => 1 / 1000 < sqDist p q) →
      (retained (vcs.foldl (insert_if_room pca) c)).Pairwise
        (fun p q => 1 / 1000 < sqDist p q) := by
  induction vcs with
  | nil => intro c _ hp; exact hp
  | cons vc vcs ih =>
    intro c h hp
    exact ih _ (reservoirShape_insert pca c vc h) (pairwise_insert pca c vc h hp)

/-- Offering the candidate of the previous call once more changes nothing. -/
theorem insert_twice (pca : Pca) (c : SamplePointsContainer) (vc : VoxelCenter)
    (h : ReservoirShape c) :
    insert_if_room pca (insert_if_room pca c vc) vc = insert_if_room pca c vc := by
  rcases insert_if_room_cases pca c vc h with h1 | ⟨_, hlt, h2⟩ | ⟨_, h9, k, hk, h3⟩
  · rw [h1, h1]
  · obtain ⟨hn, hfill | hfull⟩ := h
    · rw [h2]
      apply insert_if_room_of_reject
      · simp only; omega
      · simp only [List.length_set]; omega
      · intro hall
        have hmem : vc ∈ retained
            { c with points_ := c.points_.set c.i vc, i := c.i + 1 } := by
          rw [retained_store c vc (by omega)]
          simp
        have := hall vc hmem
        rw [sqDist_self] at this
        norm_num at this
    · omega
  · rw [h3]
    apply insert_if_room_of_gt
    obtain ⟨hn, _⟩ := h
    simp only
    omega

/-- C9: in every state reached from a freshly constructed reservoir by `insert_if_room`
calls at most 10 points are retained (and at most 10 slots exist), the retained points are
pairwise at squared distance above 1/1000 (in both orders, at any two different
positions), and offering the same candidate again right after a call changes nothing. -/
theorem C9_reservoir_invariant (pca : Pca) (vcs : List VoxelCenter) :
    (retained (vcs.foldl (insert_if_room pca) SamplePointsContainer.new)).length ≤ 10
    ∧ (vcs.foldl (insert_if_room pca) SamplePointsContainer.new).points_.length ≤ 10
    ∧ (retained (vcs.foldl (insert_if_room pca) SamplePointsContainer.new)).Pairwise
        (fun p q => 1 / 1000 < sqDist p q ∧ 1 / 1000 < sqDist q p)
    ∧ (∀ vc : VoxelCenter,
        insert_if_room pca
            (insert_if_room pca (vcs.foldl (insert_if_room pca) SamplePointsContainer.new) vc) vc
          = insert_if_room pca (vcs.foldl (insert_if_room pca) SamplePointsContainer.new) vc)
    ∧ (∀ vc : VoxelCenter,
        (retained (insert_if_room pca
          (insert_if_room pca (vcs.foldl (insert_if_room pca) SamplePointsContainer.new) vc)
            vc)).count vc ≤ 1) := by
  have hshape := reservoirShape_foldl pca vcs _ reservoirShape_new
  have hpair := pairwise_foldl pca vcs _ reservoirShape_new
    (by simp [retained, SamplePointsContainer.new])
  have hlen : (vcs.foldl (insert_if_room pca) SamplePointsContainer.new).points_.length ≤ 10 := by
    obtain ⟨_, hfill | hfull⟩ := hshape
    · omega
    · omega
  refine ⟨?_, hlen, ?_, ?_, ?_⟩
  · simp only [retained, List.length_take]
    omega
  · apply hpair.imp
    intro p q hpq
    exact ⟨hpq, by rw [sqDist_comm]; exact hpq⟩
  · intro vc
    exact insert_twice pca _ vc hshape
  · intro vc
    have hs2 := reservoirShape_insert pca _ vc (reservoirShape_insert pca _ vc hshape)
    have hp2 := pairwise_insert pca _ vc (reservoirShape_insert pca _ vc hshape)
      (pairwise_insert pca _ vc hshape hpair)
    have hnd : (retained (insert_if_room pca (insert_if_room pca
        (vcs.foldl (insert_if_room pca) SamplePointsContainer.new) vc) vc)).Nodup := by
      apply hp2.imp
      intro p q hpq heq
      rw [heq, sqDist_self] at hpq
      norm_num at hpq
    exact List.nodup_iff_count_le_one.mp hnd vc

/-! ## `resize` below capacity and the cloud it analyses -/

/-- C7 (refuted as stated): the reservoir `threeReservoir` was never filled to capacity
(`i = 3`), yet `resize` leaves one point instead of its three accepted points, and the
result depends on the shape decision. -/
theorem C7_three_points_are_cut_down :
    threeReservoir.i = 3 ∧ threeReservoir.n = 10
    ∧ retained threeReservoir = [vcAt 0 0 0 7, vcAt 1 0 0 7, vcAt 0 1 0 7]
    ∧ (resize pclPca threeReservoir).points_ = [vcAt 0 0 0 7]
    ∧ ¬ ((resize pclPca threeReservoir).points_ = retained threeReservoir)
    ∧ ¬ (resize (fun _ _ => true) threeReservoir = resize (fun _ _ => false) threeReservoir) := by
  decide!

/-- C7 (amended): on a reservoir that was never filled to capacity (capacity 10, ten
slots, `i < 10`), `resize` with `i < 3` leaves exactly the `i` accepted points in
insertion order without any shape decision (the result is the same for every PCA routine),
and with `3 ≤ i` it keeps only the first slot or only the first four slots; the counter is
unchanged in both cases. -/
theorem C7_resize_below_capacity (pca : Pca) (c : SamplePointsContainer)
    (hn : c.n = 10) (hlen : c.points_.length = 10) (hi : c.i < 10) :
    (c.i < 3 → (resize pca c).points_ = retained c ∧ ∀ pca2 : Pca, resize pca2 c = resize pca c)
    ∧ (3 ≤ c.i → (resize pca c).points_ = c.points_.take 1
        ∨ (resize pca c).points_ = c.points_.take 4)
    ∧ (resize pca c).i = c.i ∧ (resize pca c).n = 10 := by
  refine ⟨?_, ?_, ?_, ?_⟩
  · intro h3
    constructor
    · rw [resize_of_lt_three pca c h3, vecResize_of_le _ _ (by omega)]
      rfl
    · intro pca2
      rw [resize_of_lt_three pca2 c h3, resize_of_lt_three pca c h3]
  · intro h3
    rw [resize_of_three_le pca c h3]
    split
    · right
      exact vecResize_of_le _ _ (by omega)
    · left
      exact vecResize_of_le _ _ (by omega)
  · by_cases h3 : c.i < 3
    · rw [resize_of_lt_three pca c h3]
    · rw [resize_of_three_le pca c (by omega)]
  · by_cases h3 : c.i < 3
    · rw [resize_of_lt_three pca c h3]
      exact hn
    · rw [resize_of_three_le pca c (by omega)]
      exact hn

/-- C7 (amended) at a reservoir holding three points. -/
theorem C7_resize_below_capacity_witness :
    threeReservoir.n = 10 ∧ threeReservoir.points_.length = 10 ∧ threeReservoir.i < 10
    ∧ (resize pclPca threeReservoir).i = threeReservoir.i := by
  have hn : threeReservoir.n = 10 := by decide!
  have hlen : threeReservoir.points_.length = 10 := by decide!
  have hi : threeReservoir.i < 10 := by decide!
  exact ⟨hn, hlen, hi, (C7_resize_below_capacity pclPca threeReservoir hn hlen hi).2.2.1⟩

/-- C6 (code defect): the reservoir `tetraReservoir` retains the four corners of a
tetrahedron, whose scatter matrix has smallest eigenvalue above 1e-5, yet `resize` ends
with one point: for every PCA routine the outcome is decided by what the routine reports
for the cloud of ten default points, not for the retained points. -/
theorem C6_resize_analyses_the_default_cloud :
    tetraReservoir = { n := 10, i := 4, points_ :=
        [vcAt 0 0 0 7, vcAt 1 0 0 7, vcAt 0 1 0 7, vcAt 0 0 1 7]
          ++ List.replicate 6 VoxelCenter.zero }
    ∧ positions (retained tetraReservoir) = [(0, 0, 0), (1, 0, 0), (0, 1, 0), (0, 0, 1)]
    ∧ pclPca (positions (retained tetraReservoir)) (1 / 100000) = true
    ∧ pclPca (List.replicate 10 pclPointDefault) (1 / 100000) = false
    ∧ (resize pclPca tetraReservoir).points_ = [vcAt 0 0 0 7]
    ∧ ∀ pca : Pca, (resize pca tetraReservoir).points_.length
        = if pca (List.replicate 10 pclPointDefault) (1 / 100000) then 4 else 1 := by
  refine ⟨by decide!, by decide!, by decide!, by decide!, by decide!, ?_⟩
  intro pca
  have hi : 3 ≤ tetraReservoir.i := by decide!
  have hn : tetraReservoir.n = 10 := by decide!
  have hl : tetraReservoir.points_.length = 10 := by decide!
  rw [resize_of_three_le pca _ hi, hn]
  split
  · show (vecResize tetraReservoir.points_ 4).length = 4
    rw [vecResize_of_le _ 4 (by omega), List.length_take]
    omega
  · show (vecResize tetraReservoir.points_ 1).length = 1
    rw [vecResize_of_le _ 1 (by omega), List.length_take]
    omega

/-! ## The voxel map -/

/-- Keys that the comparator does not separate are equal. -/
theorem keyEquiv_eq (a b : Vector3i) (h : keyEquiv a b = true) : a = b := by
  obtain ⟨a0, a1, a2⟩ := a
  obtain ⟨b0, b1, b2⟩ := b
  simp only [keyEquiv, Vector3iComp, Bool.and_eq_true, Bool.not_eq_true'] at h
  obtain ⟨h1, h2⟩ := h
  have e0 : a0 = b0 := by
    by_contra hne
    rcases lt_or_gt_of_ne hne with hlt | hgt
    · simp [hlt] at h1
    · simp [hgt] at h2
  subst e0
  have e1 : a1 = b1 := by
    by_contra hne
    rcases lt_or_gt_of_ne hne with hlt | hgt
    · simp [hlt] at h1
    · simp [hgt] at h2
  subst e1
  have e2 : a2 = b2 := by
    by_contra hne
    rcases lt_or_gt_of_ne hne with hlt | hgt
    · simp [hlt] at h1
    · simp [hgt] at h2
  subst e2
  rfl

/-- Every entry after `voxels[vox] = c` is an old entry or the entry `(vox, c)`. -/
theorem mem_assign (voxels : VoxelMap) (vox : Vector3i) (c : SamplePointsContainer) :
    ∀ e ∈ voxels.assign vox c, e ∈ voxels ∨ e = (vox, c) := by
  induction voxels with
  | nil =>
    intro e he
    simp only [VoxelMap.assign, List.mem_singleton] at he
    exact Or.inr he
  | cons hd tl ih =>
    obtain ⟨k, c0⟩ := hd
    intro e he
    simp only [VoxelMap.assign] at he
    by_cases h1 : Vector3iComp k vox = true
    · rw [if_pos h1, List.mem_cons] at he
      rcases he with he | he
      · left; rw [he]; exact List.mem_cons_self _ _
      · rcases ih e he with h | h
        · left; exact List.mem_cons_of_mem _ h
        · right; exact h
    · rw [if_neg h1] at he
      by_cases h2 : Vector3iComp vox k = true
      · rw [if_pos h2, List.mem_cons] at he
        rcases he with he | he
        · right; exact he
        · left; exact he
      · rw [if_neg h2, List.mem_cons] at he
        have hk : k = vox := by
          apply keyEquiv_eq
          simp only [keyEquiv, Bool.and_eq_true, Bool.not_eq_true']
          exact ⟨by simpa using h1, by simpa using h2⟩
        rcases he with he | he
        · right; rw [he, hk]
        · left; exact List.mem_cons_of_mem _ he

/-- When `voxels.count(vox) > 0`, the container read by `voxels[vox]` is stored under `vox`. -/
theorem lookup_mem (voxels : VoxelMap) (vox : Vector3i) (h : voxels.count vox > 0) :
    (vox, voxels.lookup vox) ∈ voxels := by
  induction voxels with
  | nil => simp [VoxelMap.count] at h
  | cons hd tl ih =>
    obtain ⟨k, c0⟩ := hd
    simp only [VoxelMap.count] at h
    simp only [VoxelMap.lookup]
    by_cases he : keyEquiv k vox = true
    · rw [if_pos he, keyEquiv_eq k vox he]
      exact List.mem_cons_self _ _
    · rw [if_neg he] at h
      rw [if_neg he]
      exact List.mem_cons_of_mem _ (ih h)

/-- A property of all entries is kept by the map update of the loop body when it is kept
by `insert_if_room` on the stored containers and holds after the first insertion into a
fresh container. -/
theorem buildMap_forall (P : Vector3i × SamplePointsContainer → Prop) (pca : Pca)
    (voxel_size : ℚ) (voxels : VoxelMap) (p col : Vector3d) (dense_label : Int)
    (hall : ∀ e ∈ voxels, P e)
    (hold : ∀ c, (get_voxel p.1 p.2.1 p.2.2 voxel_size, c) ∈ voxels →
      P (get_voxel p.1 p.2.1 p.2.2 voxel_size,
        insert_if_room pca c (makeCenter p col dense_label voxel_size)))
    (hnew : P (get_voxel p.1 p.2.1 p.2.2 voxel_size,
        insert_if_room pca SamplePointsContainer.new (makeCenter p col dense_label voxel_size))) :
    ∀ e ∈ buildMap pca voxel_size voxels p col dense_label, P e := by
  intro e he
  unfold buildMap at he
  simp only at he
  split at he
  · next hc =>
    rcases mem_assign _ _ _ e he with h | h
    · exact hall e h
    · rw [h]
      exact hold _ (lookup_mem voxels _ hc)
  · rcases mem_assign _ _ _ e he with h | h
    · exact hall e h
    · rw [h]
      exact hnew

/-! ## Labels of the emitted lines -/

/-- A property of the retained points is kept by `insert_if_room` when the candidate has it. -/
theorem forall_retained_insert (Q : VoxelCenter → Prop) (pca : Pca)
    (c : SamplePointsContainer) (vc : VoxelCenter) (h : ReservoirShape c)
    (hq : ∀ p ∈ retained c, Q p) (hvc : Q vc) :
    ∀ p ∈ retained (insert_if_room pca c vc), Q p := by
  rcases retained_insert pca c vc h with h1 | ⟨_, hsub⟩
  · rw [h1]; exact hq
  · intro p hp
    have := hsub.subset hp
    rw [List.mem_append, List.mem_singleton] at this
    rcases this with h2 | h2
    · exact hq p h2
    · rw [h2]; exact hvc

/-- In a labelled run every container of the streaming map is in a regular state and
retains only points with a non-zero label. -/
theorem streaming_labels (pca : Pca) (voxel_size : ℚ) (rows : List Row) :
    ∀ voxels : VoxelMap,
      (∀ e ∈ voxels, ReservoirShape e.2 ∧ ∀ p ∈ retained e.2, p.label ≠ 0) →
      ∀ e ∈ rows.foldl (rowStep pca voxel_size) voxels,
        ReservoirShape e.2 ∧ ∀ p ∈ retained e.2, p.label ≠ 0 := by
  induction rows with
  | nil => intro voxels h; exact h
  | cons w ws ih =>
    intro voxels h
    apply ih
    unfold rowStep
    by_cases h0 : w.2.2 = 0
    · rw [if_pos h0]; exact h
    · rw [if_neg h0]
      apply buildMap_forall (fun e => ReservoirShape e.2 ∧ ∀ p ∈ retained e.2, p.label ≠ 0)
      · exact h
      · intro c hc
        have := h _ hc
        exact ⟨reservoirShape_insert pca c _ this.1,
          forall_retained_insert (fun p => p.label ≠ 0) pca c _ this.1 this.2 h0⟩
      · exact ⟨reservoirShape_insert pca _ _ reservoirShape_new,
          forall_retained_insert (fun p => p.label ≠ 0) pca _ _ reservoirShape_new
            (by simp [retained, SamplePointsContainer.new]) h0⟩

/-- When the PCA routine reports the default cloud as flat, the final `resize` of a
container in a regular state leaves only retained points. -/
theorem resize_subset_retained (pca : Pca)
    (hflat : pca (List.replicate 10 pclPointDefault) (1 / 100000) = false)
    (c : SamplePointsContainer) (h : ReservoirShape c) :
    ∀ p ∈ (resize pca c).points_, p ∈ retained c := by
  obtain ⟨hn, hshape⟩ := h
  intro p hp
  by_cases h3 : c.i < 3
  · rw [resize_of_lt_three pca c h3, vecResize_of_le _ _ (by omega)] at hp
    exact hp
  · rw [resize_of_three_le pca c (by omega), hn, hflat] at hp
    simp only [Bool.false_eq_true, if_false] at hp
    rw [vecResize_of_le _ _ (by omega)] at hp
    have hsub : (c.points_.take 1).Sublist (c.points_.take c.i) := by
      apply List.Sublist.trans _ (List.take_sublist 1 (c.points_.take c.i))
      rw [List.take_take]
      have : min 1 c.i = 1 := by omega
      rw [this]
    exact hsub.subset hp

/-- Every emitted line comes from a slot of a container of the map. -/
theorem mem_exportLines (has_label : Bool) (voxels : VoxelMap) (l : OutputLine)
    (h : l ∈ exportLines has_label voxels) :
    ∃ e ∈ voxels, ∃ p ∈ e.2.points_, l = outputLine has_label p := by
  unfold exportLines at h
  rw [List.mem_flatten] at h
  obtain ⟨ls, hls, hl⟩ := h
  rw [List.mem_map] at hls
  obtain ⟨e, he, rfl⟩ := hls
  rw [List.mem_map] at hl
  obtain ⟨p, hp, rfl⟩ := hl
  exact ⟨e, he, p, hp, rfl⟩

/-- C4: in every labelled run, with a PCA routine that reports the cloud of ten default
points as flat (as the library does: its scatter matrix is zero), the run returns and no
emitted line carries label 0; every emitted line is a retained input point, never a
zero-initialised slot. -/
theorem C4_no_label_zero_emitted (pca : Pca)
    (hflat : pca (List.replicate 10 pclPointDefault) (1 / 100000) = false)
    (rows : List Row) (voxel_size : ℚ) :
    ∃ out, adaptive_sampling pca (rowsCloud rows) (some (rowsLabels rows)) voxel_size = some out
      ∧ ∀ l ∈ out, l.label ≠ some 0 ∧ l.label ≠ none := by
  refine ⟨exportLines true (resizeSweep pca (rows.foldl (rowStep pca voxel_size) [])), ?_, ?_⟩
  · simp [adaptive_sampling, sampledVoxels, streamingPass_rows]
  · intro l hl
    obtain ⟨e, he, p, hp, rfl⟩ := mem_exportLines true _ l hl
    unfold resizeSweep at he
    rw [List.mem_map] at he
    obtain ⟨e0, he0, rfl⟩ := he
    have hgood := streaming_labels pca voxel_size rows [] (by simp) e0 he0
    have hret := resize_subset_retained pca hflat e0.2 hgood.1 p hp
    have hlab := hgood.2 p hret
    constructor
    · simp only [outputLine, if_true, ne_eq, Option.some.injEq]
      exact hlab
    · simp [outputLine]

/-- C4 at a labelled input of five points, one of them with label 0. -/
theorem C4_no_label_zero_emitted_witness :
    pclPca (List.replicate 10 pclPointDefault) (1 / 100000) = false
    ∧ ∃ out, adaptive_sampling pclPca (rowsCloud sampleRows) (some (rowsLabels sampleRows)) 1
        = some out ∧ ∀ l ∈ out, l.label ≠ some 0 ∧ l.label ≠ none :=
  ⟨by decide!, C4_no_label_zero_emitted pclPca (by decide!) sampleRows 1⟩

/-! ## The comparator -/

/-- The comparator decides the strict lexicographic order. -/
theorem comp_iff_lexLt (a b : Vector3i) : Vector3iComp a b = true ↔ lexLt a b := by
  obtain ⟨a0, a1, a2⟩ := a
  obtain ⟨b0, b1, b2⟩ := b
  simp only [Vector3iComp, lexLt]
  by_cases h0 : a0 < b0
  · simp [h0]
  · by_cases e0 : a0 = b0
    · by_cases h1 : a1 < b1
      · simp [e0, h1]
      · by_cases e1 : a1 = b1
        · by_cases h2 : a2 < b2
          · simp [e0, e1, h2]
          · simp [e0, e1, h2]
        · simp [e0, h1, e1]
    · simp [h0, e0]

/-- The lexicographic order is irreflexive. -/
theorem lexLt_irrefl (a : Vector3i) : ¬ lexLt a a := by
  unfold lexLt
  omega

/-- The lexicographic order is transitive. -/
theorem lexLt_trans (a b c : Vector3i) (hab : lexLt a b) (hbc : lexLt b c) : lexLt a c := by
  unfold lexLt at *
  omega

/-- Two triples are ordered one way, or the other way, or equal. -/
theorem lexLt_total (a b : Vector3i) : lexLt a b ∨ lexLt b a ∨ a = b := by
  obtain ⟨a0, a1, a2⟩ := a
  obtain ⟨b0, b1, b2⟩ := b
  simp only [lexLt, Prod.mk.injEq]
  omega

/-- The lexicographic order is asymmetric. -/
theorem lexLt_asymm (a b : Vector3i) (hab : lexLt a b) : ¬ lexLt b a := by
  unfold lexLt at *
  omega

/-- C17: `Vector3iComp` is the strict lexicographic order on `(ix, iy, iz)` (written out,
and as the order of the lexicographic product `ℤ ×ₗ ℤ ×ₗ ℤ`); it is irreflexive and
transitive, for any two triples exactly one of `comp a b`, `comp b a`, `a = b` holds, and
two keys are equivalent under the comparator exactly when they are equal. -/
theorem C17_comparator_is_strict_lexicographic_order :
    (∀ a b : Vector3i, Vector3iComp a b = true ↔ lexLt a b)
    ∧ (∀ a b : Vector3i, Vector3iComp a b = true
        ↔ toLex (a.1, toLex (a.2.1, a.2.2)) < toLex (b.1, toLex (b.2.1, b.2.2)))
    ∧ (∀ a : Vector3i, Vector3iComp a a = false)
    ∧ (∀ a b c : Vector3i, Vector3iComp a b = true → Vector3iComp b c = true →
        Vector3iComp a c = true)
    ∧ (∀ a b : Vector3i, Vector3iComp a b = true ∨ Vector3iComp b a = true ∨ a = b)
    ∧ (∀ a b : Vector3i, ¬ (Vector3iComp a b = true ∧ Vector3iComp b a = true))
    ∧ (∀ a b : Vector3i, ¬ (Vector3iComp a b = true ∧ a = b))
    ∧ (∀ a b : Vector3i, ¬ (Vector3iComp b a = true ∧ a = b))
    ∧ (∀ a b : Vector3i, keyEquiv a b = true ↔ a = b) := by
  refine ⟨comp_iff_lexLt, ?_, ?_, ?_, ?_, ?_, ?_, ?_, ?_⟩
  · intro a b
    rw [comp_iff_lexLt, Prod.Lex.lt_iff]
    simp only [Prod.Lex.lt_iff, lexLt, ofLex_toLex]
  · intro a
    have := lexLt_irrefl a
    rw [← comp_iff_lexLt] at this
    simpa using this
  · intro a b c hab hbc
    rw [comp_iff_lexLt] at *
    exact lexLt_trans a b c hab hbc
  · intro a b
    simp only [comp_iff_lexLt]
    exact lexLt_total a b
  · intro a b
    simp only [comp_iff_lexLt]
    rintro ⟨h1, h2⟩
    exact lexLt_asymm a b h1 h2
  · intro a b
    simp only [comp_iff_lexLt]
    rintro ⟨h1, h2⟩
    rw [h2] at h1
    exact lexLt_irrefl b h1
  · intro a b
    simp only [comp_iff_lexLt]
    rintro ⟨h1, h2⟩
    rw [h2] at h1
    exact lexLt_irrefl b h1
  · intro a b
    constructor
    · exact keyEquiv_eq a b
    · intro h
      rw [h]
      have := lexLt_irrefl b
      rw [← comp_iff_lexLt] at this
      simp only [keyEquiv, Bool.and_eq_true, Bool.not_eq_true', and_self]
      simpa using this

/-! ## Key order and content of the streaming map -/

/-- A key is equivalent to itself. -/
theorem keyEquiv_self (a : Vector3i) : keyEquiv a a = true := by
  have h := lexLt_irrefl a
  rw [← comp_iff_lexLt] at h
  simp only [keyEquiv, Bool.and_eq_true, Bool.not_eq_true', and_self]
  simpa using h

/-- Unequal keys are ordered by the lexicographic order. -/
theorem ne_of_lexLt (a b : Vector3i) (h : lexLt a b) : a ≠ b := by
  intro hab
  rw [hab] at h
  exact lexLt_irrefl b h

/-- The write `voxels[vox] = c` keeps the entries in key order. -/
theorem assign_sorted (voxels : VoxelMap) (vox : Vector3i) (c : SamplePointsContainer)
    (h : KeysSorted voxels) : KeysSorted (voxels.assign vox c) := by
  induction voxels with
  | nil => simp [VoxelMap.assign, KeysSorted]
  | cons hd tl ih =>
    obtain ⟨k, c0⟩ := hd
    unfold KeysSorted at h ih ⊢
    rw [List.pairwise_cons] at h
    simp only [VoxelMap.assign]
    by_cases h1 : Vector3iComp k vox = true
    · rw [if_pos h1, List.pairwise_cons]
      refine ⟨?_, ih h.2⟩
      intro e he
      rcases mem_assign tl vox c e he with h2 | h2
      · exact h.1 e h2
      · rw [h2]
        exact (comp_iff_lexLt k vox).mp h1
    · rw [if_neg h1]
      by_cases h2 : Vector3iComp vox k = true
      · rw [if_pos h2, List.pairwise_cons]
        refine ⟨?_, List.pairwise_cons.mpr h⟩
        intro e he
        rw [List.mem_cons] at he
        rcases he with he | he
        · rw [he]
          exact (comp_iff_lexLt vox k).mp h2
        · exact lexLt_trans _ _ _ ((comp_iff_lexLt vox k).mp h2) (h.1 e he)
      · rw [if_neg h2, List.pairwise_cons]
        exact ⟨h.1, h.2⟩

/-- In a map in key order, every entry after `voxels[vox] = c` is an old entry under
another key or the entry `(vox, c)`. -/
theorem mem_assign_sorted (voxels : VoxelMap) (vox : Vector3i) (c : SamplePointsContainer)
    (h : KeysSorted voxels) :
    ∀ e ∈ voxels.assign vox c, (e ∈ voxels ∧ e.1 ≠ vox) ∨ e = (vox, c) := by
  induction voxels with
  | nil =>
    intro e he
    simp only [VoxelMap.assign, List.mem_singleton] at he
    exact Or.inr he
  | cons hd tl ih =>
    obtain ⟨k, c0⟩ := hd
    unfold KeysSorted at h ih
    rw [List.pairwise_cons] at h
    intro e he
    simp only [VoxelMap.assign] at he
    by_cases h1 : Vector3iComp k vox = true
    · rw [if_pos h1, List.mem_cons] at he
      rcases he with he | he
      · left
        rw [he]
        exact ⟨List.mem_cons_self _ _, ne_of_lexLt _ _ ((comp_iff_lexLt k vox).mp h1)⟩
      · rcases ih h.2 e he with h3 | h3
        · left; exact ⟨List.mem_cons_of_mem _ h3.1, h3.2⟩
        · right; exact h3
    · rw [if_neg h1] at he
      by_cases h2 : Vector3iComp vox k = true
      · have hlt := (comp_iff_lexLt vox k).mp h2
        rw [if_pos h2, List.mem_cons] at he
        rcases he with he | he
        · right; exact he
        · left
          refine ⟨he, ?_⟩
          rw [List.mem_cons] at he
          rcases he with he | he
          · rw [he]
            exact (ne_of_lexLt _ _ hlt).symm
          · exact (ne_of_lexLt _ _ (lexLt_trans _ _ _ hlt (h.1 e he))).symm
      · rw [if_neg h2, List.mem_cons] at he
        have hk : k = vox := by
          apply keyEquiv_eq
          simp only [keyEquiv, Bool.and_eq_true, Bool.not_eq_true']
          exact ⟨by simpa using h1, by simpa using h2⟩
        rcases he with he | he
        · right; rw [he, hk]
        · left
          refine ⟨List.mem_cons_of_mem _ he, ?_⟩
          rw [← hk]
          exact (ne_of_lexLt _ _ (h.1 e he)).symm

/-- After `voxels[vox] = c` the entry `(vox, c)` is in the map. -/
theorem assign_mem_self (voxels : VoxelMap) (vox : Vector3i) (c : SamplePointsContainer) :
    (vox, c) ∈ voxels.assign vox c := by
  induction voxels with
  | nil => simp [VoxelMap.assign]
  | cons hd tl ih =>
    obtain ⟨k, c0⟩ := hd
    simp only [VoxelMap.assign]
    by_cases h1 : Vector3iComp k vox = true
    · rw [if_pos h1]
      exact List.mem_cons_of_mem _ ih
    · rw [if_neg h1]
      by_cases h2 : Vector3iComp vox k = true
      · rw [if_pos h2]
        exact List.mem_cons_self _ _
      · rw [if_neg h2]
        have hk : k = vox := by
          apply keyEquiv_eq
          simp only [keyEquiv, Bool.and_eq_true, Bool.not_eq_true']
          exact ⟨by simpa using h1, by simpa using h2⟩
        rw [hk]
        exact List.mem_cons_self _ _

/-- The write `voxels[vox] = c` keeps the entries of all other keys. -/
theorem mem_assign_of_ne (voxels : VoxelMap) (vox : Vector3i) (c : SamplePointsContainer)
    (e : Vector3i × SamplePointsContainer) (he : e ∈ voxels) (hne : e.1 ≠ vox) :
    e ∈ voxels.assign vox c := by
  induction voxels with
  | nil => simp at he
  | cons hd tl ih =>
    obtain ⟨k, c0⟩ := hd
    simp only [VoxelMap.assign]
    rw [List.mem_cons] at he
    by_cases h1 : Vector3iComp k vox = true
    · rw [if_pos h1, List.mem_cons]
      rcases he with he | he
      · left; exact he
      · right; exact ih he
    · rw [if_neg h1]
      by_cases h2 : Vector3iComp vox k = true
      · rw [if_pos h2]
        apply List.mem_cons_of_mem
        rw [List.mem_cons]
        exact he
      · rw [if_neg h2, List.mem_cons]
        have hk : k = vox := by
          apply keyEquiv_eq
          simp only [keyEquiv, Bool.and_eq_true, Bool.not_eq_true']
          exact ⟨by simpa using h1, by simpa using h2⟩
        rcases he with he | he
        · exfalso
          apply hne
          rw [he, hk]
        · right; exact he

/-- A stored key is counted. -/
theorem count_pos_of_mem (voxels : VoxelMap) (vox : Vector3i) (c : SamplePointsContainer)
    (h : (vox, c) ∈ voxels) : voxels.count vox > 0 := by
  induction voxels with
  | nil => simp at h
  | cons hd tl ih =>
    obtain ⟨k, c0⟩ := hd
    simp only [VoxelMap.count]
    by_cases he : keyEquiv k vox = true
    · rw [if_pos he]
      omega
    · rw [if_neg he]
      rw [List.mem_cons] at h
      rcases h with h | h
      · exfalso
        apply he
        have : k = vox := by
          have := congrArg Prod.fst h
          exact this.symm
        rw [this]
        exact keyEquiv_self vox
      · exact ih h

/-- The loop body's map update writes, under the key of the point, the result of offering
its `VoxelCenter` to the stored container, or to a fresh one when the key is absent. -/
theorem buildMap_eq (pca : Pca) (voxel_size : ℚ) (voxels : VoxelMap) (p col : Vector3d)
    (dense_label : Int) :
    buildMap pca voxel_size voxels p col dense_label
      = voxels.assign (get_voxel p.1 p.2.1 p.2.2 voxel_size)
          (insert_if_room pca
            (if voxels.count (get_voxel p.1 p.2.1 p.2.2 voxel_size) > 0 then
              voxels.lookup (get_voxel p.1 p.2.1 p.2.2 voxel_size)
            else SamplePointsContainer.new)
            (makeCenter p col dense_label voxel_size)) := by
  unfold buildMap
  simp only
  split <;> rfl

/-- The candidates of a key after one more row. -/
theorem candidatesFor_append (voxel_size : ℚ) (rows : List Row) (w : Row) (k : Vector3i) :
    candidatesFor voxel_size (rows ++ [w]) k
      = candidatesFor voxel_size rows k
        ++ (if w.2.2 ≠ 0 ∧ keyOf voxel_size w = k then [centerOf voxel_size w] else []) := by
  unfold candidatesFor rowsFor
  rw [List.filter_append, List.map_append]
  congr 1
  by_cases h : w.2.2 ≠ 0 ∧ keyOf voxel_size w = k
  · rw [if_pos h, List.filter_cons_of_pos (by simpa using h)]
    rfl
  · rw [if_neg h, List.filter_cons_of_neg (by simpa using h)]
    rfl

/-- One loop iteration keeps the map grouped by key. -/
theorem grouped_rowStep (pca : Pca) (voxel_size : ℚ) (rows : List Row) (voxels : VoxelMap)
    (w : Row) (h : Grouped pca voxel_size rows voxels) :
    Grouped pca voxel_size (rows ++ [w]) (rowStep pca voxel_size voxels w) := by
  unfold rowStep
  by_cases h0 : w.2.2 = 0
  · rw [if_pos h0]
    have hc : ∀ k, candidatesFor voxel_size (rows ++ [w]) k = candidatesFor voxel_size rows k := by
      intro k
      rw [candidatesFor_append, if_neg (by simp [h0])]
      simp
    unfold Grouped
    simp only [hc]
    exact h
  · rw [if_neg h0, buildMap_eq]
    obtain ⟨hsorted, hentries, hpresent⟩ := h
    have hvox : candidatesFor voxel_size (rows ++ [w]) (keyOf voxel_size w)
        = candidatesFor voxel_size rows (keyOf voxel_size w) ++ [centerOf voxel_size w] := by
      rw [candidatesFor_append, if_pos ⟨h0, rfl⟩]
    have hother : ∀ k, k ≠ keyOf voxel_size w →
        candidatesFor voxel_size (rows ++ [w]) k = candidatesFor voxel_size rows k := by
      intro k hk
      rw [candidatesFor_append, if_neg (by
        rintro ⟨_, h2⟩
        exact hk h2.symm)]
      simp
    have hstar : (if voxels.count (keyOf voxel_size w) > 0 then
          voxels.lookup (keyOf voxel_size w) else SamplePointsContainer.new)
        = (candidatesFor voxel_size rows (keyOf voxel_size w)).foldl (insert_if_room pca)
            SamplePointsContainer.new := by
      by_cases hc : voxels.count (keyOf voxel_size w) > 0
      · rw [if_pos hc]
        exact (hentries _ (lookup_mem voxels _ hc)).2
      · rw [if_neg hc]
        have hnil : candidatesFor voxel_size rows (keyOf voxel_size w) = [] := by
          by_contra hne
          obtain ⟨c, hcm⟩ := hpresent _ hne
          exact hc (count_pos_of_mem voxels _ c hcm)
        rw [hnil]
        rfl
    show Grouped pca voxel_size (rows ++ [w])
      (voxels.assign (keyOf voxel_size w)
        (insert_if_room pca
          (if voxels.count (keyOf voxel_size w) > 0 then voxels.lookup (keyOf voxel_size w)
            else SamplePointsContainer.new)
          (centerOf voxel_size w)))
    rw [hstar]
    refine ⟨assign_sorted _ _ _ hsorted, ?_, ?_⟩
    · intro e he
      rcases mem_assign_sorted voxels _ _ hsorted e he with ⟨hmem, hne⟩ | heq
      · rw [hother e.1 hne]
        exact hentries e hmem
      · rw [heq]
        simp only
        rw [hvox, List.foldl_append]
        exact ⟨by simp, rfl⟩
    · intro k hk
      by_cases hkv : k = keyOf voxel_size w
      · rw [hkv]
        exact ⟨_, assign_mem_self _ _ _⟩
      · rw [hother k hkv] at hk
        obtain ⟨c, hcm⟩ := hpresent k hk
        exact ⟨c, mem_assign_of_ne voxels _ _ (k, c) hcm hkv⟩

/-- The streaming map of a labelled input is grouped by key. -/
theorem grouped_foldl (pca : Pca) (voxel_size : ℚ) (rows : List Row) :
    Grouped pca voxel_size rows (rows.foldl (rowStep pca voxel_size) []) := by
  induction rows using List.reverseRecOn with
  | nil =>
    refine ⟨List.Pairwise.nil, ?_, ?_⟩
    · intro e he
      simp at he
    · intro k hk
      simp [candidatesFor, rowsFor] at hk
  | append_singleton l a ih =>
    rw [List.foldl_append]
    exact grouped_rowStep pca voxel_size l _ a ih

/-- A key has candidates exactly when it is the key of a row that is not skipped. -/
theorem candidatesFor_ne_nil_iff (voxel_size : ℚ) (rows : List Row) (k : Vector3i) :
    candidatesFor voxel_size rows k ≠ [] ↔ k ∈ distinctKeys voxel_size rows := by
  unfold candidatesFor rowsFor distinctKeys
  rw [List.mem_dedup, List.mem_map, ne_eq, List.map_eq_nil_iff, List.filter_eq_nil_iff]
  constructor
  · intro h
    push_neg at h
    obtain ⟨w, hw, hcond⟩ := h
    simp only [Bool.and_eq_true, decide_eq_true_eq] at hcond
    exact ⟨w, List.mem_filter.mpr ⟨hw, by simpa using hcond.1⟩, hcond.2⟩
  · rintro ⟨w, hw, hk⟩ hall
    rw [List.mem_filter] at hw
    apply hall w hw.1
    simp only [Bool.and_eq_true, decide_eq_true_eq]
    exact ⟨by simpa using hw.2, hk⟩

/-- The keys of a grouped map are, up to order, the distinct keys of the processed rows. -/
theorem grouped_keys_perm (pca : Pca) (voxel_size : ℚ) (rows : List Row) (voxels : VoxelMap)
    (h : Grouped pca voxel_size rows voxels) :
    (voxels.map Prod.fst).Perm (distinctKeys voxel_size rows) := by
  obtain ⟨hsorted, hentries, hpresent⟩ := h
  have hnd : (voxels.map Prod.fst).Nodup := by
    unfold List.Nodup
    rw [List.pairwise_map]
    exact hsorted.imp (fun hlt => ne_of_lexLt _ _ hlt)
  have hnd2 : (distinctKeys voxel_size rows).Nodup := by
    unfold distinctKeys
    exact List.nodup_dedup _
  rw [List.perm_ext_iff_of_nodup hnd hnd2]
  intro k
  rw [← candidatesFor_ne_nil_iff]
  constructor
  · intro hk
    rw [List.mem_map] at hk
    obtain ⟨e, he, rfl⟩ := hk
    exact (hentries e he).1
  · intro hk
    obtain ⟨c, hc⟩ := hpresent k hk
    exact List.mem_map.mpr ⟨(k, c), hc, rfl⟩

/-! ## How many lines a run emits -/

/-- The length after `std::vector::resize(k)` is `k`. -/
theorem vecResize_length (v : List VoxelCenter) (k : Nat) : (vecResize v k).length = k := by
  unfold vecResize
  simp only [List.length_append, List.length_take, List.length_replicate]
  omega

/-- After `resize` a container holds `i` slots when `i < 3`, and otherwise one or four. -/
theorem resize_length (pca : Pca) (c : SamplePointsContainer) :
    (resize pca c).points_.length
      = if c.i < 3 then c.i
        else if pca (List.replicate c.n pclPointDefault) (1 / 100000) then 4 else 1 := by
  by_cases h3 : c.i < 3
  · rw [resize_of_lt_three pca c h3, if_pos h3]
    exact vecResize_length _ _
  · rw [resize_of_three_le pca c (by omega), if_neg h3]
    exact vecResize_length _ _

/-- After `resize` a container holds at most four slots. -/
theorem resize_length_le_four (pca : Pca) (c : SamplePointsContainer) :
    (resize pca c).points_.length ≤ 4 := by
  rw [resize_length]
  split
  · omega
  · split <;> omega

/-- A map whose containers hold at most four slots each emits at most four lines per entry. -/
theorem exportLines_length_le (has_label : Bool) (voxels : VoxelMap)
    (h : ∀ e ∈ voxels, e.2.points_.length ≤ 4) :
    (exportLines has_label voxels).length ≤ 4 * voxels.length := by
  induction voxels with
  | nil => simp [exportLines]
  | cons hd tl ih =>
    have h1 := h hd (List.mem_cons_self _ _)
    have h2 := ih (fun e he => h e (List.mem_cons_of_mem _ he))
    unfold exportLines at h2 ⊢
    simp only [List.map_cons, List.flatten_cons, List.length_append, List.length_map,
      List.length_cons]
    omega

/-- C14: for every positive `voxel_size`, a labelled run returns and emits at most four
lines per distinct key of the rows that are not skipped (the map has exactly one entry per
such key); an unlabelled run emits no line at all, so the bound holds there as well. -/
theorem C14_at_most_four_lines_per_key (pca : Pca) (rows : List Row) (voxel_size : ℚ)
    (hs : 0 < voxel_size) :
    (∃ voxels out,
      sampledVoxels pca (rowsCloud rows) (some (rowsLabels rows)) voxel_size = some voxels
      ∧ adaptive_sampling pca (rowsCloud rows) (some (rowsLabels rows)) voxel_size = some out
      ∧ voxels.length = (distinctKeys voxel_size rows).length
      ∧ out.length ≤ 4 * (distinctKeys voxel_size rows).length)
    ∧ ∀ dense_pcd : PointCloud, adaptive_sampling pca dense_pcd none voxel_size = some [] := by
  have _ := hs
  constructor
  · refine ⟨resizeSweep pca (rows.foldl (rowStep pca voxel_size) []),
      exportLines true (resizeSweep pca (rows.foldl (rowStep pca voxel_size) [])), ?_, ?_, ?_, ?_⟩
    · simp [sampledVoxels, streamingPass_rows]
    · simp [adaptive_sampling, sampledVoxels, streamingPass_rows]
    · have := (grouped_keys_perm pca voxel_size rows _ (grouped_foldl pca voxel_size rows)).length_eq
      simpa [resizeSweep] using this
    · have hlen := (grouped_keys_perm pca voxel_size rows _
        (grouped_foldl pca voxel_size rows)).length_eq
      have hexp := exportLines_length_le true
        (resizeSweep pca (rows.foldl (rowStep pca voxel_size) [])) (by
          intro e he
          unfold resizeSweep at he
          rw [List.mem_map] at he
          obtain ⟨e0, _, rfl⟩ := he
          exact resize_length_le_four pca e0.2)
      simp only [resizeSweep, List.length_map] at hexp hlen
      rw [← hlen]
      exact hexp
  · intro dense_pcd
    rfl

/-- C14 at the labelled input `sampleRows` with `voxel_size = 1`. -/
theorem C14_at_most_four_lines_per_key_witness :
    (0 : ℚ) < 1
    ∧ ∃ voxels out,
      sampledVoxels pclPca (rowsCloud sampleRows) (some (rowsLabels sampleRows)) 1 = some voxels
      ∧ adaptive_sampling pclPca (rowsCloud sampleRows) (some (rowsLabels sampleRows)) 1
          = some out
      ∧ voxels.length = (distinctKeys 1 sampleRows).length
      ∧ out.length ≤ 4 * (distinctKeys 1 sampleRows).length :=
  ⟨by norm_num, (C14_at_most_four_lines_per_key pclPca sampleRows 1 (by norm_num)).1⟩

/-! ## A reservoir at capacity -/

/-- C11: in a state reached from a fresh reservoir whose counter has reached the capacity
(10 or more), the counter is 11, and every further call of `insert_if_room`, with any
candidate, and every further sequence of calls, returns the state unchanged. -/
theorem C11_full_reservoir_ignores_candidates (pca : Pca) (vcs more : List VoxelCenter)
    (h : 10 ≤ (vcs.foldl (insert_if_room pca) SamplePointsContainer.new).i) :
    (vcs.foldl (insert_if_room pca) SamplePointsContainer.new).i = 11
    ∧ (∀ vc : VoxelCenter,
        insert_if_room pca (vcs.foldl (insert_if_room pca) SamplePointsContainer.new) vc
          = vcs.foldl (insert_if_room pca) SamplePointsContainer.new)
    ∧ more.foldl (insert_if_room pca) (vcs.foldl (insert_if_room pca) SamplePointsContainer.new)
        = vcs.foldl (insert_if_room pca) SamplePointsContainer.new := by
  have hshape := reservoirShape_foldl pca vcs _ reservoirShape_new
  obtain ⟨hn, hfill | hfull⟩ := hshape
  · omega
  · have hstep : ∀ vc : VoxelCenter,
        insert_if_room pca (vcs.foldl (insert_if_room pca) SamplePointsContainer.new) vc
          = vcs.foldl (insert_if_room pca) SamplePointsContainer.new := by
      intro vc
      exact insert_if_room_of_gt pca _ vc (by omega)
    refine ⟨hfull.1, hstep, ?_⟩
    induction more with
    | nil => rfl
    | cons vc more ih =>
      rw [List.foldl_cons, hstep vc]
      exact ih

/-- C11 after ten accepted candidates, followed by two more candidates. -/
theorem C11_full_reservoir_ignores_candidates_witness :
    10 ≤ (tenCandidates.foldl (insert_if_room pclPca) SamplePointsContainer.new).i
    ∧ [vcAt 50 0 0 7, vcAt 0 50 0 7].foldl (insert_if_room pclPca)
        (tenCandidates.foldl (insert_if_room pclPca) SamplePointsContainer.new)
      = tenCandidates.foldl (insert_if_room pclPca) SamplePointsContainer.new :=
  ⟨by decide!,
    (C11_full_reservoir_ignores_candidates pclPca tenCandidates
      [vcAt 50 0 0 7, vcAt 0 50 0 7] (by decide!)).2.2⟩

/-! ## Idempotence of `resize` -/

/-- Resizing a vector twice to the same length is resizing it once. -/
theorem vecResize_idem (v : List VoxelCenter) (k : Nat) :
    vecResize (vecResize v k) k = vecResize v k := by
  rw [vecResize_of_le (vecResize v k) k (by rw [vecResize_length])]
  apply List.take_of_length_le
  rw [vecResize_length]

/-- Applying `resize` twice is applying it once, in every state. -/
theorem resize_idem (pca : Pca) (c : SamplePointsContainer) :
    resize pca (resize pca c) = resize pca c := by
  by_cases h3 : c.i < 3
  · rw [resize_of_lt_three pca c h3, resize_of_lt_three pca _ (by simpa using h3)]
    simp only [vecResize_idem]
  · rw [resize_of_three_le pca c (by omega), resize_of_three_le pca _ (by simp only; omega)]
    simp only [vecResize_idem]

/-- In a state reached from a fresh reservoir, a counter at 11 means that the in-stream
`resize` left the number of slots that the PCA decision on the default cloud selects. -/
theorem full_length_foldl (pca : Pca) (vcs : List VoxelCenter) :
    ∀ c, ReservoirShape c →
      (c.i = 11 → c.points_.length
        = if pca (List.replicate 10 pclPointDefault) (1 / 100000) then 4 else 1) →
      ((vcs.foldl (insert_if_room pca) c).i = 11 →
        (vcs.foldl (insert_if_room pca) c).points_.length
          = if pca (List.replicate 10 pclPointDefault) (1 / 100000) then 4 else 1) := by
  induction vcs with
  | nil => intro c _ h; exact h
  | cons vc vcs ih =>
    intro c hshape h
    apply ih _ (reservoirShape_insert pca c vc hshape)
    obtain ⟨hn, hfill | hfull⟩ := hshape
    · by_cases hacc : ∀ p ∈ retained c, 1 / 1000 < sqDist vc p
      · by_cases hlast : c.i + 1 < 10
        · rw [insert_if_room_of_accept pca c vc (by omega) (by omega) hacc]
          intro h11
          simp only at h11
          omega
        · rw [insert_if_room_of_accept_last pca c vc (by omega) (by omega) (by omega) hacc]
          intro _
          simp only [hn]
          exact vecResize_length _ _
      · rw [insert_if_room_of_reject pca c vc (by omega) (by omega) hacc]
        exact h
    · rw [insert_if_room_of_gt pca c vc (by omega)]
      exact h

/-- A container that already has the number of slots selected by the PCA decision is left
unchanged by `resize`. -/
theorem resize_eq_self (pca : Pca) (c : SamplePointsContainer) (hn : c.n = 10)
    (h3 : 3 ≤ c.i)
    (hl : c.points_.length
      = if pca (List.replicate 10 pclPointDefault) (1 / 100000) then 4 else 1) :
    resize pca c = c := by
  obtain ⟨n, i, pts⟩ := c
  simp only at hn h3 hl
  subst hn
  rw [resize_of_three_le pca _ h3]
  simp only
  rw [← hl, vecResize_of_le _ _ (Nat.le_refl _), List.take_of_length_le (Nat.le_refl _)]

/-- C12: applying `resize` twice yields the same state as applying it once, in every
state and so in every state reached by `insert_if_room` calls; a reservoir already resized
in-stream at capacity is left unchanged by the `resize` of the final sweep; and sweeping a
map twice is sweeping it once. -/
theorem C12_resize_is_idempotent (pca : Pca) :
    (∀ c : SamplePointsContainer, resize pca (resize pca c) = resize pca c)
    ∧ (∀ vcs : List VoxelCenter,
        resize pca (resize pca (vcs.foldl (insert_if_room pca) SamplePointsContainer.new))
          = resize pca (vcs.foldl (insert_if_room pca) SamplePointsContainer.new))
    ∧ (∀ vcs : List VoxelCenter,
        10 ≤ (vcs.foldl (insert_if_room pca) SamplePointsContainer.new).i →
        resize pca (vcs.foldl (insert_if_room pca) SamplePointsContainer.new)
          = vcs.foldl (insert_if_room pca) SamplePointsContainer.new)
    ∧ (∀ voxels : VoxelMap, resizeSweep pca (resizeSweep pca voxels) = resizeSweep pca voxels) := by
  refine ⟨resize_idem pca, fun vcs => resize_idem pca _, ?_, ?_⟩
  · intro vcs h10
    have hshape := reservoirShape_foldl pca vcs _ reservoirShape_new
    have hlen := full_length_foldl pca vcs _ reservoirShape_new (by
      intro h
      simp [SamplePointsContainer.new] at h)
    obtain ⟨hn, hfill | hfull⟩ := hshape
    · omega
    · exact resize_eq_self pca _ hn (by omega) (hlen hfull.1)
  · intro voxels
    unfold resizeSweep
    rw [List.map_map]
    apply List.map_congr_left
    intro e _
    simp only [Function.comp, resize_idem]

/-! ## Index safety of the reservoir -/

/-- A checked scan over indices below the length never faults and is the unchecked scan. -/
theorem foldlM_checked_scan (vc : VoxelCenter) (points_ : List VoxelCenter) (l : List Nat)
    (hl : ∀ j ∈ l, j < points_.length) :
    ∀ d0 : ℚ,
      l.foldlM
        (fun dmin j =>
          match points_[j]? with
          | some p =>
            let d := sqDist vc p
            some (if d < dmin then d else dmin)
          | none => none) d0
      = some (l.foldl
        (fun dmin j =>
          let d := sqDist vc (points_.getD j VoxelCenter.zero)
          if d < dmin then d else dmin) d0) := by
  induction l with
  | nil => intro d0; rfl
  | cons a l ih =>
    intro d0
    have ha : a < points_.length := hl a (List.mem_cons_self _ _)
    simp only [List.foldlM_cons, List.foldl_cons]
    rw [List.getElem?_eq_getElem ha, List.getD_eq_getElem _ _ ha]
    exact ih (fun j hj => hl j (List.mem_cons_of_mem _ hj)) _

/-- With the scanned slots allocated, the checked scan returns the value of the scan. -/
theorem dminLoopChecked_eq (vc : VoxelCenter) (points_ : List VoxelCenter) (i : Nat)
    (hi : i ≤ points_.length) :
    dminLoopChecked vc points_ i = some (dminLoop vc points_ i) := by
  unfold dminLoopChecked dminLoop
  apply foldlM_checked_scan
  intro j hj
  rw [List.mem_range] at hj
  omega

/-- In a regular state every access of `insert_if_room` is in range: the checked call
returns the result of the call. -/
theorem insert_if_room_checked_eq (pca : Pca) (c : SamplePointsContainer) (vc : VoxelCenter)
    (h : ReservoirShape c) :
    insert_if_room_checked pca c vc = some (insert_if_room pca c vc) := by
  obtain ⟨hn, hfill | hfull⟩ := h
  · unfold insert_if_room_checked insert_if_room acceptBlock
    rw [if_pos (by omega), if_pos (by omega), dminLoopChecked_eq vc _ _ (by omega)]
    simp only
    by_cases hd : dminLoop vc c.points_ c.i > 1 / 1000
    · rw [if_pos hd, if_pos hd, if_pos (by omega)]
    · rw [if_neg hd, if_neg hd, ite_self]
  · unfold insert_if_room_checked insert_if_room acceptBlock
    rw [if_neg (by omega), if_neg (by omega)]

/-- A sequence of checked calls from a regular state never faults. -/
theorem foldlM_insert_if_room_checked (pca : Pca) (vcs : List VoxelCenter) :
    ∀ c, ReservoirShape c →
      vcs.foldlM (insert_if_room_checked pca) c = some (vcs.foldl (insert_if_room pca) c) := by
  induction vcs with
  | nil => intro c _; rfl
  | cons vc vcs ih =>
    intro c h
    rw [List.foldlM_cons, insert_if_room_checked_eq pca c vc h]
    exact ih _ (reservoirShape_insert pca c vc h)

/-- C20: for every sequence of `insert_if_room` calls on a freshly constructed container,
the calls with all accesses to `points_` checked never fault and produce the same states;
in every state reached, whenever the guard `i < n` lets a call touch `points_`, the write
index `i` (and so every read index `j < i`) is below the current length of `points_`, also
after the in-stream `resize` has shrunk the vector. -/
theorem C20_reservoir_accesses_in_range (pca : Pca) (vcs : List VoxelCenter) :
    vcs.foldlM (insert_if_room_checked pca) SamplePointsContainer.new
      = some (vcs.foldl (insert_if_room pca) SamplePointsContainer.new)
    ∧ ((vcs.foldl (insert_if_room pca) SamplePointsContainer.new).i
          < (vcs.foldl (insert_if_room pca) SamplePointsContainer.new).n →
        (vcs.foldl (insert_if_room pca) SamplePointsContainer.new).i
          < (vcs.foldl (insert_if_room pca) SamplePointsContainer.new).points_.length)
    ∧ (∀ vc : VoxelCenter,
        (insert_if_room_checked pca
          (vcs.foldl (insert_if_room pca) SamplePointsContainer.new) vc).isSome = true) := by
  have hshape := reservoirShape_foldl pca vcs _ reservoirShape_new
  refine ⟨foldlM_insert_if_room_checked pca vcs _ reservoirShape_new, ?_, ?_⟩
  · intro hlt
    obtain ⟨hn, hfill | hfull⟩ := hshape
    · omega
    · omega
  · intro vc
    rw [insert_if_room_checked_eq pca _ vc hshape]
    rfl

/-! ## One reservoir and the candidates offered to it -/

/-- The first candidate offered to a fresh container is stored in slot 0. -/
theorem insert_if_room_new (pca : Pca) (vc : VoxelCenter) :
    insert_if_room pca SamplePointsContainer.new vc
      = { SamplePointsContainer.new with
          points_ := SamplePointsContainer.new.points_.set 0 vc, i := 1 } := by
  have h := insert_if_room_of_accept pca SamplePointsContainer.new vc
    (by simp [SamplePointsContainer.new]) (by simp [SamplePointsContainer.new])
    (by simp [retained, SamplePointsContainer.new])
  rw [h]
  rfl

/-- The fill counter never decreases. -/
theorem i_le_insert (pca : Pca) (c : SamplePointsContainer) (vc : VoxelCenter)
    (h : ReservoirShape c) : c.i ≤ (insert_if_room pca c vc).i := by
  rcases insert_if_room_cases pca c vc h with h1 | ⟨_, _, h2⟩ | ⟨_, h9, k, _, h3⟩
  · rw [h1]
  · rw [h2]
    simp only
    omega
  · rw [h3]
    simp only
    omega

/-- The fill counter never decreases along a sequence of calls. -/
theorem i_le_foldl (pca : Pca) (vcs : List VoxelCenter) :
    ∀ c, ReservoirShape c → c.i ≤ (vcs.foldl (insert_if_room pca) c).i := by
  induction vcs with
  | nil => intro c _; exact Nat.le_refl _
  | cons vc vcs ih =>
    intro c h
    exact Nat.le_trans (i_le_insert pca c vc h) (ih _ (reservoirShape_insert pca c vc h))

/-- A reservoir that was offered at least one candidate has accepted at least one. -/
theorem one_le_i_foldl (pca : Pca) (vcs : List VoxelCenter) (h : vcs ≠ []) :
    1 ≤ (vcs.foldl (insert_if_room pca) SamplePointsContainer.new).i := by
  cases vcs with
  | nil => exact absurd rfl h
  | cons vc vcs =>
    rw [List.foldl_cons]
    have h1 := i_le_foldl pca vcs _ (reservoirShape_insert pca _ vc reservoirShape_new)
    rw [insert_if_room_new] at h1 ⊢
    exact h1

/-- The retained points are, in order, among the old retained points followed by the
candidates offered: slot order is acceptance order. -/
theorem retained_foldl_sublist (pca : Pca) (vcs : List VoxelCenter) :
    ∀ c, ReservoirShape c →
      (retained (vcs.foldl (insert_if_room pca) c)).Sublist (retained c ++ vcs) := by
  induction vcs with
  | nil =>
    intro c _
    simp
  | cons vc vcs ih =>
    intro c h
    have h1 := ih _ (reservoirShape_insert pca c vc h)
    have h2 : (retained (insert_if_room pca c vc)).Sublist (retained c ++ [vc]) := by
      rcases retained_insert pca c vc h with he | ⟨_, hs⟩
      · rw [he]
        exact List.sublist_append_left _ _
      · exact hs
    have h3 := List.Sublist.append h2 (List.Sublist.refl vcs)
    rw [List.append_assoc, List.singleton_append] at h3
    exact List.Sublist.trans h1 h3

/-- Candidates at squared distance 0 from a retained point leave a filling reservoir
unchanged. -/
theorem foldl_rejected (pca : Pca) (c : SamplePointsContainer) (p0 : VoxelCenter)
    (hin : c.i < c.n) (hlen : c.i ≤ c.points_.length) (hp0 : p0 ∈ retained c)
    (vcs : List VoxelCenter) (hall : ∀ vc ∈ vcs, sqDist vc p0 = 0) :
    vcs.foldl (insert_if_room pca) c = c := by
  induction vcs with
  | nil => rfl
  | cons vc vcs ih =>
    rw [List.foldl_cons]
    have hrej : insert_if_room pca c vc = c := by
      apply insert_if_room_of_reject pca c vc hin hlen
      intro hacc
      have := hacc p0 hp0
      rw [hall vc (List.mem_cons_self _ _)] at this
      norm_num at this
    rw [hrej]
    exact ih (fun v hv => hall v (List.mem_cons_of_mem _ hv))

/-- When every later candidate is at squared distance 0 from the first one, the reservoir
keeps the first candidate only. -/
theorem foldl_same_place (pca : Pca) (vc0 : VoxelCenter) (vcs : List VoxelCenter)
    (hall : ∀ vc ∈ vcs, sqDist vc vc0 = 0) :
    (vc0 :: vcs).foldl (insert_if_room pca) SamplePointsContainer.new
      = { SamplePointsContainer.new with
          points_ := SamplePointsContainer.new.points_.set 0 vc0, i := 1 } := by
  rw [List.foldl_cons, insert_if_room_new]
  apply foldl_rejected pca _ vc0 _ _ _ vcs hall
  · show 1 < 10
    omega
  · simp [SamplePointsContainer.new]
  · simp [retained, SamplePointsContainer.new]

/-- With a PCA routine that reports the default cloud as flat, `resize` leaves the first
`i` retained points when `i < 3` and the first retained point otherwise. -/
theorem resize_points_flat (pca : Pca)
    (hflat : pca (List.replicate 10 pclPointDefault) (1 / 100000) = false)
    (c : SamplePointsContainer) (h : ReservoirShape c) :
    (resize pca c).points_ = (retained c).take (if c.i < 3 then c.i else 1) := by
  obtain ⟨hn, hshape⟩ := h
  unfold retained
  rw [List.take_take]
  by_cases h3 : c.i < 3
  · rw [resize_of_lt_three pca c h3, if_pos h3, vecResize_of_le _ _ (by omega), Nat.min_self]
  · rw [resize_of_three_le pca c (by omega), hn, hflat, if_neg h3]
    simp only [Bool.false_eq_true, if_false]
    rw [vecResize_of_le _ _ (by omega)]
    have : min 1 c.i = 1 := by omega
    rw [this]

/-! ## Order of the emitted lines -/

/-- The lines of a swept map, entry by entry. -/
theorem exportLines_resizeSweep (pca : Pca) (has_label : Bool) (voxels : VoxelMap) :
    exportLines has_label (resizeSweep pca voxels)
      = (voxels.map (fun e => (resize pca e.2).points_.map (outputLine has_label))).flatten := by
  unfold exportLines resizeSweep
  rw [List.map_map]
  rfl

/-- C16: in a labelled run, with a PCA routine that reports the default cloud as flat, the
map entries are in strictly increasing lexicographic key order, their keys are the
distinct keys of the processed rows, each reservoir is the result of offering its
candidates in input order (so its retained points are, in slot order, a subsequence of
those candidates: slot order is acceptance order), and the emitted lines are the
concatenation over the entries, in that key order, of the points the reservoir keeps
after the sweep, which are its first retained points in slot order. -/
theorem C16_lines_in_key_order_then_acceptance_order (pca : Pca)
    (hflat : pca (List.replicate 10 pclPointDefault) (1 / 100000) = false)
    (rows : List Row) (voxel_size : ℚ) :
    ∃ voxels : VoxelMap,
      streamingPass pca (rowsCloud rows) (rowsLabels rows) true voxel_size = some voxels
      ∧ voxels.Pairwise (fun e1 e2 => lexLt e1.1 e2.1)
      ∧ (voxels.map Prod.fst).Perm (distinctKeys voxel_size rows)
      ∧ (∀ e ∈ voxels,
          e.2 = (candidatesFor voxel_size rows e.1).foldl (insert_if_room pca)
              SamplePointsContainer.new
          ∧ (retained e.2).Sublist (candidatesFor voxel_size rows e.1))
      ∧ adaptive_sampling pca (rowsCloud rows) (some (rowsLabels rows)) voxel_size
          = some ((voxels.map (fun e => (e.2.points_.take (if e.2.i < 3 then e.2.i else 1)).map
              (outputLine true))).flatten) := by
  have hg := grouped_foldl pca voxel_size rows
  refine ⟨rows.foldl (rowStep pca voxel_size) [], streamingPass_rows pca rows voxel_size,
    hg.1, grouped_keys_perm pca voxel_size rows _ hg, ?_, ?_⟩
  · intro e he
    have h1 := (hg.2.1 e he).2
    refine ⟨h1, ?_⟩
    have h2 := retained_foldl_sublist pca (candidatesFor voxel_size rows e.1) _ reservoirShape_new
    rw [← h1] at h2
    simpa [retained, SamplePointsContainer.new] using h2
  · simp only [adaptive_sampling, sampledVoxels, Option.getD_some, Option.isSome_some,
      streamingPass_rows, Option.map_some', exportLines_resizeSweep]
    congr 2
    apply List.map_congr_left
    intro e he
    have h1 := (hg.2.1 e he).2
    have hshape : ReservoirShape e.2 := by
      rw [h1]
      exact reservoirShape_foldl pca _ _ reservoirShape_new
    rw [resize_points_flat pca hflat e.2 hshape]
    congr 1
    unfold retained
    rw [List.take_take]
    congr 1
    obtain ⟨hn, hfill | hfull⟩ := hshape
    · split <;> omega
    · split <;> omega

/-- C16 at the labelled input `sampleRows` with `voxel_size = 1`. -/
theorem C16_lines_in_key_order_then_acceptance_order_witness :
    pclPca (List.replicate 10 pclPointDefault) (1 / 100000) = false
    ∧ ∃ voxels : VoxelMap,
      streamingPass pclPca (rowsCloud sampleRows) (rowsLabels sampleRows) true 1 = some voxels
      ∧ voxels.Pairwise (fun e1 e2 => lexLt e1.1 e2.1)
      ∧ (voxels.map Prod.fst).Perm (distinctKeys 1 sampleRows)
      ∧ (∀ e ∈ voxels,
          e.2 = (candidatesFor 1 sampleRows e.1).foldl (insert_if_room pclPca)
              SamplePointsContainer.new
          ∧ (retained e.2).Sublist (candidatesFor 1 sampleRows e.1))
      ∧ adaptive_sampling pclPca (rowsCloud sampleRows) (some (rowsLabels sampleRows)) 1
          = some ((voxels.map (fun e => (e.2.points_.take (if e.2.i < 3 then e.2.i else 1)).map
              (outputLine true))).flatten) :=
  ⟨by decide!, C16_lines_in_key_order_then_acceptance_order pclPca (by decide!) sampleRows 1⟩

/-! ## Non-positive voxel sizes -/

/-- A map with an entry, all of whose containers hold a slot, emits a line. -/
theorem exportLines_ne_nil (has_label : Bool) (voxels : VoxelMap) (hne : voxels ≠ [])
    (h : ∀ e ∈ voxels, e.2.points_ ≠ []) : exportLines has_label voxels ≠ [] := by
  cases voxels with
  | nil => exact absurd rfl hne
  | cons hd tl =>
    have h1 := h hd (List.mem_cons_self _ _)
    unfold exportLines
    simp only [List.map_cons, List.flatten_cons, ne_eq, List.append_eq_nil, List.map_eq_nil_iff,
      not_and]
    intro h2
    exact absurd h2 h1

/-- A labelled run with a row that is not skipped emits at least one line, whatever the
voxel size. -/
theorem output_ne_nil (pca : Pca) (rows : List Row) (voxel_size : ℚ)
    (hrow : ∃ w ∈ rows, w.2.2 ≠ 0) :
    exportLines true (resizeSweep pca (rows.foldl (rowStep pca voxel_size) [])) ≠ [] := by
  have hg := grouped_foldl pca voxel_size rows
  apply exportLines_ne_nil
  · obtain ⟨w, hw, hw0⟩ := hrow
    have hk : candidatesFor voxel_size rows (keyOf voxel_size w) ≠ [] := by
      rw [candidatesFor_ne_nil_iff]
      unfold distinctKeys
      rw [List.mem_dedup, List.mem_map]
      exact ⟨w, List.mem_filter.mpr ⟨hw, by simpa using hw0⟩, rfl⟩
    obtain ⟨c, hc⟩ := hg.2.2 _ hk
    intro hnil
    unfold resizeSweep at hnil
    rw [List.map_eq_nil_iff] at hnil
    rw [hnil] at hc
    simp at hc
  · intro e he
    unfold resizeSweep at he
    rw [List.mem_map] at he
    obtain ⟨e0, he0, rfl⟩ := he
    have h1 := hg.2.1 e0 he0
    have hi := one_le_i_foldl pca _ h1.1
    rw [← h1.2] at hi
    intro hnil
    have hlen := resize_length pca e0.2
    simp only at hnil
    rw [hnil] at hlen
    simp only [List.length_nil] at hlen
    split at hlen
    · omega
    · split at hlen <;> omega

/-- C15 (refuted as stated): with `voxel_size = -1` the labelled input `sampleRows` is
processed without any error and two lines are emitted. -/
theorem C15_negative_voxel_size_is_processed :
    adaptive_sampling pclPca (rowsCloud sampleRows) (some (rowsLabels sampleRows)) (-1)
      = some [{ x := 5, y := 5, z := 5, r := 0, g := 0, b := 0, label := some 4 },
              { x := 0, y := 0, z := 0, r := 1, g := 1, b := 1, label := some 1 }] := by
  decide!

/-- C15 (amended): `adaptive_sampling` does not validate `voxel_size`. For every negative
`voxel_size` a labelled run completes (no error outcome), and it emits at least one line
as soon as one row has a non-zero label. -/
theorem C15_negative_voxel_size_runs (pca : Pca) (rows : List Row) (voxel_size : ℚ)
    (hs : voxel_size < 0) :
    ∃ out, adaptive_sampling pca (rowsCloud rows) (some (rowsLabels rows)) voxel_size = some out
      ∧ ((∃ w ∈ rows, w.2.2 ≠ 0) → out ≠ []) := by
  have _ := hs
  refine ⟨exportLines true (resizeSweep pca (rows.foldl (rowStep pca voxel_size) [])), ?_, ?_⟩
  · simp [adaptive_sampling, sampledVoxels, streamingPass_rows]
  · exact output_ne_nil pca rows voxel_size

/-- C15 (amended) at the labelled input `sampleRows` with `voxel_size = -1`. -/
theorem C15_negative_voxel_size_runs_witness :
    (-1 : ℚ) < 0
    ∧ ∃ out, adaptive_sampling pclPca (rowsCloud sampleRows) (some (rowsLabels sampleRows)) (-1)
        = some out ∧ ((∃ w ∈ sampleRows, w.2.2 ≠ 0) → out ≠ []) :=
  ⟨by norm_num, C15_negative_voxel_size_runs pclPca sampleRows (-1) (by norm_num)⟩

/-! ## Corners stored in one reservoir -/

/-- C18 (code defect): with `voxel_size = 1` the two points `(-1/2, -1/2, -1/2)` and
`(1/2, 1/2, 1/2)` land in the single reservoir keyed `(0, 0, 0)`, which retains two
different snapped corners, `(-1, -1, -1)` and `(0, 0, 0)`; the first is not the corner
`floor * voxel_size` of the cube of the second, nor `key * voxel_size`. -/
theorem C18_one_reservoir_holds_two_corners :
    (streamingPass pclPca (rowsCloud originRows) (rowsLabels originRows) true 1).map
        (fun voxels => voxels.map (fun e => (e.1, positions (retained e.2))))
      = some [(((0, 0, 0) : Vector3i), [((-1, -1, -1) : Vector3d), ((0, 0, 0) : Vector3d)])]
    ∧ originRows.map (keyOf 1) = [((0, 0, 0) : Vector3i), ((0, 0, 0) : Vector3i)]
    ∧ originRows.map (fun w => positions [centerOf 1 w])
        = [[((-1, -1, -1) : Vector3d)], [((0, 0, 0) : Vector3d)]] := by
  refine ⟨by decide!, by decide!, by decide!⟩

/-! ## How many points one reservoir can accept -/

/-- The floor behind a key component is the component or the component minus one. -/
theorem axisIndex_eq (f k : Int) (h : axisIndex f = k) : f = k ∨ f = k - 1 := by
  unfold axisIndex at h
  split at h <;> omega

/-- A non-zero key component determines the floor behind it. -/
theorem axisIndex_inj (f g k : Int) (hk : k ≠ 0) (hf : axisIndex f = k) (hg : axisIndex g = k) :
    f = g := by
  unfold axisIndex at hf hg
  split at hf <;> split at hg <;> omega

/-- The key of a row is `axisIndex` of its cube, axis by axis. -/
theorem keyOf_eq (voxel_size : ℚ) (w : Row) :
    keyOf voxel_size w
      = (axisIndex (cubeOf voxel_size w).1, axisIndex (cubeOf voxel_size w).2.1,
          axisIndex (cubeOf voxel_size w).2.2) := by
  unfold keyOf cubeOf
  rw [get_voxel_eq]

/-- The position stored for a row is its cube scaled by the voxel size. -/
theorem centerOf_pos (voxel_size : ℚ) (w : Row) :
    (centerOf voxel_size w).pos
      = (((cubeOf voxel_size w).1 : ℚ) * voxel_size, ((cubeOf voxel_size w).2.1 : ℚ) * voxel_size,
          ((cubeOf voxel_size w).2.2 : ℚ) * voxel_size) := by
  rfl

/-- The position stored for a row of key `k` is one of the eight corners of `k`. -/
theorem centerOf_mem_corners (voxel_size : ℚ) (w : Row) (k : Vector3i)
    (hk : keyOf voxel_size w = k) : (centerOf voxel_size w).pos ∈ corners voxel_size k := by
  rw [keyOf_eq] at hk
  obtain ⟨k0, k1, k2⟩ := k
  simp only [Prod.mk.injEq] at hk
  obtain ⟨h0, h1, h2⟩ := hk
  rw [centerOf_pos]
  simp only [corners, List.mem_cons, Prod.mk.injEq, List.mem_singleton]
  rcases axisIndex_eq _ _ h0 with e0 | e0 <;> rcases axisIndex_eq _ _ h1 with e1 | e1 <;>
    rcases axisIndex_eq _ _ h2 with e2 | e2 <;> rw [e0, e1, e2] <;> push_cast <;> simp

/-- Points farther apart than the threshold have different positions. -/
theorem pos_ne_of_separated (p q : VoxelCenter) (h : 1 / 1000 < sqDist p q) : p.pos ≠ q.pos := by
  intro heq
  simp only [VoxelCenter.pos, Prod.mk.injEq] at heq
  obtain ⟨hx, hy, hz⟩ := heq
  unfold sqDist at h
  rw [hx, hy, hz] at h
  norm_num at h

/-- Points at the same position are at squared distance 0. -/
theorem sqDist_eq_zero_of_pos (p q : VoxelCenter) (h : p.pos = q.pos) : sqDist p q = 0 := by
  simp only [VoxelCenter.pos, Prod.mk.injEq] at h
  obtain ⟨hx, hy, hz⟩ := h
  unfold sqDist
  rw [hx, hy, hz]
  ring

/-- A reservoir in the streaming state of key `k` has accepted at most eight points. -/
theorem cornerInv_le_eight (voxel_size : ℚ) (k : Vector3i) (c : SamplePointsContainer)
    (h : CornerInv voxel_size k c) : c.i ≤ 8 := by
  obtain ⟨⟨hn, hshape⟩, hi, hpair, hcor⟩ := h
  have hlen : (retained c).length = c.i := by
    simp only [retained, List.length_take]
    omega
  have hnd : ((retained c).map VoxelCenter.pos).Nodup := by
    unfold List.Nodup
    rw [List.pairwise_map]
    exact hpair.imp (fun hpq => pos_ne_of_separated _ _ hpq)
  have hsub : (retained c).map VoxelCenter.pos ⊆ corners voxel_size k := by
    intro v hv
    rw [List.mem_map] at hv
    obtain ⟨p, hp, rfl⟩ := hv
    exact hcor p hp
  have h8 := (List.subperm_of_subset hnd hsub).length_le
  simp only [List.length_map, hlen] at h8
  simpa [corners] using h8

/-- The first block of `insert_if_room` raises the counter by at most one and keeps `n`. -/
theorem acceptBlock_i_le (c : SamplePointsContainer) (vc : VoxelCenter) :
    (acceptBlock c vc).i ≤ c.i + 1 ∧ (acceptBlock c vc).n = c.n := by
  unfold acceptBlock
  by_cases h1 : c.i < c.n
  · rw [if_pos h1]
    simp only
    by_cases h2 : dminLoop vc c.points_ c.i > 1 / 1000
    · rw [if_pos h2]
      simp
    · rw [if_neg h2]
      simp
  · rw [if_neg h1]
    simp

/-- In the streaming state a call of `insert_if_room` with a candidate at a corner of the
key keeps the streaming state, and its capacity block does nothing. -/
theorem cornerInv_insert (pca : Pca) (voxel_size : ℚ) (k : Vector3i)
    (c : SamplePointsContainer) (vc : VoxelCenter) (h : CornerInv voxel_size k c)
    (hvc : vc.pos ∈ corners voxel_size k) :
    CornerInv voxel_size k (insert_if_room pca c vc)
    ∧ insert_if_room pca c vc = acceptBlock c vc := by
  have h8 := cornerInv_le_eight voxel_size k c h
  obtain ⟨hshape, hi, hpair, hcor⟩ := h
  have hb := acceptBlock_i_le c vc
  have hn : c.n = 10 := hshape.1
  have heq : insert_if_room pca c vc = acceptBlock c vc := by
    unfold insert_if_room
    apply capacityBlock_of_ne
    omega
  refine ⟨⟨reservoirShape_insert pca c vc hshape, ?_, pairwise_insert pca c vc hshape hpair,
    forall_retained_insert (fun p => p.pos ∈ corners voxel_size k) pca c vc hshape hcor hvc⟩, heq⟩
  rw [heq]
  omega

/-- Along candidates at corners of the key, the streaming state is kept and the calls of
`insert_if_room` are calls of its first block only. -/
theorem cornerInv_foldl (pca : Pca) (voxel_size : ℚ) (k : Vector3i) (vcs : List VoxelCenter)
    (hv : ∀ vc ∈ vcs, vc.pos ∈ corners voxel_size k) :
    ∀ c, CornerInv voxel_size k c →
      CornerInv voxel_size k (vcs.foldl (insert_if_room pca) c)
      ∧ vcs.foldl (insert_if_room pca) c = vcs.foldl acceptBlock c := by
  induction vcs with
  | nil => intro c h; exact ⟨h, rfl⟩
  | cons vc vcs ih =>
    intro c h
    have h1 := cornerInv_insert pca voxel_size k c vc h (hv vc (List.mem_cons_self _ _))
    have h2 := ih (fun v hv2 => hv v (List.mem_cons_of_mem _ hv2)) _ h1.1
    rw [List.foldl_cons, List.foldl_cons]
    refine ⟨h2.1, ?_⟩
    rw [h2.2, h1.2]

/-- A fresh container is in the streaming state of every key. -/
theorem cornerInv_new (voxel_size : ℚ) (k : Vector3i) :
    CornerInv voxel_size k SamplePointsContainer.new := by
  refine ⟨reservoirShape_new, ?_, ?_, ?_⟩
  · show (0 : Nat) < 10
    omega
  · simp [retained, SamplePointsContainer.new]
  · simp [retained, SamplePointsContainer.new]

/-- The candidates of key `k` are at corners of `k`. -/
theorem candidatesFor_corners (voxel_size : ℚ) (rows : List Row) (k : Vector3i) :
    ∀ vc ∈ candidatesFor voxel_size rows k, vc.pos ∈ corners voxel_size k := by
  intro vc hvc
  unfold candidatesFor rowsFor at hvc
  rw [List.mem_map] at hvc
  obtain ⟨w, hw, rfl⟩ := hvc
  rw [List.mem_filter] at hw
  have hk : keyOf voxel_size w = k := by
    have := hw.2
    simp only [Bool.and_eq_true, decide_eq_true_eq] at this
    exact this.2
  exact centerOf_mem_corners voxel_size w k hk

/-- The candidates of a key without zero component all have the same position. -/
theorem candidatesFor_same_pos (voxel_size : ℚ) (rows : List Row) (k : Vector3i)
    (h0 : k.1 ≠ 0) (h1 : k.2.1 ≠ 0) (h2 : k.2.2 ≠ 0) :
    ∀ vc ∈ candidatesFor voxel_size rows k, ∀ vc2 ∈ candidatesFor voxel_size rows k,
      vc.pos = vc2.pos := by
  have key : ∀ vc ∈ candidatesFor voxel_size rows k, ∃ w, keyOf voxel_size w = k
      ∧ vc = centerOf voxel_size w := by
    intro vc hvc
    unfold candidatesFor rowsFor at hvc
    rw [List.mem_map] at hvc
    obtain ⟨w, hw, rfl⟩ := hvc
    rw [List.mem_filter] at hw
    have := hw.2
    simp only [Bool.and_eq_true, decide_eq_true_eq] at this
    exact ⟨w, this.2, rfl⟩
  intro vc hvc vc2 hvc2
  obtain ⟨w, hw, rfl⟩ := key vc hvc
  obtain ⟨w2, hw2, rfl⟩ := key vc2 hvc2
  rw [keyOf_eq] at hw hw2
  obtain ⟨k0, k1, k2⟩ := k
  simp only [Prod.mk.injEq] at hw hw2
  rw [centerOf_pos, centerOf_pos,
    axisIndex_inj _ _ k0 h0 hw.1 hw2.1, axisIndex_inj _ _ k1 h1 hw.2.1 hw2.2.1,
    axisIndex_inj _ _ k2 h2 hw.2.2 hw2.2.2]

/-- In the streaming map of a labelled input every reservoir has accepted between one and
eight points, still has its ten slots, and is the result of the first block of
`insert_if_room` alone on its candidates. -/
theorem streaming_below_capacity (pca : Pca) (rows : List Row) (voxel_size : ℚ) :
    ∀ e ∈ rows.foldl (rowStep pca voxel_size) [],
      candidatesFor voxel_size rows e.1 ≠ []
      ∧ 1 ≤ e.2.i ∧ e.2.i ≤ 8 ∧ e.2.n = 10 ∧ e.2.points_.length = 10
      ∧ e.2 = (candidatesFor voxel_size rows e.1).foldl acceptBlock SamplePointsContainer.new := by
  intro e he
  have hg := (grouped_foldl pca voxel_size rows).2.1 e he
  have hc := cornerInv_foldl pca voxel_size e.1 (candidatesFor voxel_size rows e.1)
    (candidatesFor_corners voxel_size rows e.1) _ (cornerInv_new voxel_size e.1)
  rw [← hg.2] at hc
  have h8 := cornerInv_le_eight voxel_size e.1 e.2 hc.1
  have h1 := one_le_i_foldl pca _ hg.1
  rw [← hg.2] at h1
  obtain ⟨⟨hn, hshape⟩, hi, _, _⟩ := hc.1
  refine ⟨hg.1, h1, h8, hn, ?_, hc.2⟩
  rcases hshape with hfill | hfull
  · exact hfill.2
  · omega

/-- In the streaming map of a labelled input a reservoir whose key has no zero component
retains exactly the first candidate of its key. -/
theorem streaming_first_only (pca : Pca) (rows : List Row) (voxel_size : ℚ) :
    ∀ e ∈ rows.foldl (rowStep pca voxel_size) [],
      e.1.1 ≠ 0 → e.1.2.1 ≠ 0 → e.1.2.2 ≠ 0 →
      e.2.i = 1 ∧ retained e.2 = (candidatesFor voxel_size rows e.1).take 1 := by
  intro e he h0 h1 h2
  have hg := (grouped_foldl pca voxel_size rows).2.1 e he
  have hsame := candidatesFor_same_pos voxel_size rows e.1 h0 h1 h2
  cases hcands : candidatesFor voxel_size rows e.1 with
  | nil => exact absurd hcands hg.1
  | cons vc0 rest =>
    rw [hcands] at hg hsame
    have hstate := foldl_same_place pca vc0 rest (by
      intro vc hvc
      apply sqDist_eq_zero_of_pos
      exact hsame vc (List.mem_cons_of_mem _ hvc) vc0 (List.mem_cons_self _ _))
    rw [← hg.2] at hstate
    rw [hstate]
    refine ⟨rfl, ?_⟩
    simp [retained, SamplePointsContainer.new, List.replicate]

/-! ## The 32-bit key and the capacity of a reservoir -/

/-- On a labelled input given row by row, the iteration with the 32-bit key at the index of
row `w` performs `rowStep32` on `w`. -/
theorem loopBody32_rows (pca : Pca) (rows : List Row) (voxel_size : ℚ) (voxels : VoxelMap)
    (idx : Nat) (w : Row) (h : rows[idx]? = some w) :
    loopBody32 pca (rowsCloud rows) (rowsLabels rows) true voxel_size voxels idx
      = some (rowStep32 pca voxel_size voxels w) := by
  simp only [loopBody32, rowsCloud, rowsLabels, rowStep32, List.getElem?_map, h,
    Option.map_some', if_true, Bool.true_and, beq_iff_eq]
  by_cases h0 : w.2.2 = 0 <;> simp [h0]

/-- The loop with the 32-bit key over the indices of the rows `ws` that follow a prefix. -/
theorem foldlM_loopBody32_rows (pca : Pca) (voxel_size : ℚ) (ws : List Row) :
    ∀ (pre : List Row) (voxels : VoxelMap),
      (List.range' pre.length ws.length).foldlM
          (loopBody32 pca (rowsCloud (pre ++ ws)) (rowsLabels (pre ++ ws)) true voxel_size) voxels
        = some (ws.foldl (rowStep32 pca voxel_size) voxels) := by
  induction ws with
  | nil => intro pre voxels; simp [List.range']
  | cons w ws ih =>
    intro pre voxels
    have hget : (pre ++ w :: ws)[pre.length]? = some w := by
      rw [List.getElem?_append_right (Nat.le_refl _)]
      simp
    have hassoc : pre ++ w :: ws = (pre ++ [w]) ++ ws := by simp
    have hlen : (pre ++ [w]).length = pre.length + 1 := by simp
    simp only [List.length_cons, List.range'_succ, List.foldlM_cons, List.foldl_cons]
    rw [loopBody32_rows pca _ voxel_size voxels _ w hget]
    have := ih (pre ++ [w]) (rowStep32 pca voxel_size voxels w)
    rw [hlen, ← hassoc] at this
    simpa using this

/-- The streaming pass with the 32-bit key over a labelled input never fails and is the
left fold of `rowStep32` over the rows. -/
theorem streamingPass32_rows (pca : Pca) (rows : List Row) (voxel_size : ℚ) :
    streamingPass32 pca (rowsCloud rows) (rowsLabels rows) true voxel_size
      = some (rows.foldl (rowStep32 pca voxel_size) []) := by
  have h := foldlM_loopBody32_rows pca voxel_size rows [] []
  simp only [List.length_nil, List.nil_append] at h
  unfold streamingPass32
  rw [List.range_eq_range']
  simpa [rowsLabels] using h

/-- When the three truncated indices of a row are representable in 32 bits, the 32-bit key
is the key. -/
theorem get_voxel32_eq (voxel_size : ℚ) (w : Row)
    (h : fitsInt32 (keyOf voxel_size w).1 ∧ fitsInt32 (keyOf voxel_size w).2.1
      ∧ fitsInt32 (keyOf voxel_size w).2.2) :
    get_voxel32 w.1.1 w.1.2.1 w.1.2.2 voxel_size = keyOf voxel_size w := by
  obtain ⟨h0, h1, h2⟩ := h
  unfold keyOf get_voxel at h0 h1 h2 ⊢
  simp only at h0 h1 h2
  unfold get_voxel32 toInt32
  simp only
  rw [if_pos h0, if_pos h1, if_pos h2]

/-- On rows whose truncated indices are representable in 32 bits, the loop iteration with
the 32-bit key is the loop iteration. -/
theorem foldl_rowStep32_eq (pca : Pca) (voxel_size : ℚ) (rows : List Row)
    (hfit : ∀ w ∈ rows, w.2.2 ≠ 0 →
      fitsInt32 (keyOf voxel_size w).1 ∧ fitsInt32 (keyOf voxel_size w).2.1
        ∧ fitsInt32 (keyOf voxel_size w).2.2) :
    ∀ voxels : VoxelMap,
      rows.foldl (rowStep32 pca voxel_size) voxels = rows.foldl (rowStep pca voxel_size) voxels := by
  induction rows with
  | nil => intro voxels; rfl
  | cons w ws ih =>
    intro voxels
    have hstep : rowStep32 pca voxel_size voxels w = rowStep pca voxel_size voxels w := by
      unfold rowStep32 rowStep
      by_cases h0 : w.2.2 = 0
      · rw [if_pos h0, if_pos h0]
      · rw [if_neg h0, if_neg h0]
        unfold buildMap32 buildMap
        rw [get_voxel32_eq voxel_size w (hfit w (List.mem_cons_self _ _) h0)]
        rfl
    rw [List.foldl_cons, List.foldl_cons, hstep]
    exact ih (fun v hv => hfit v (List.mem_cons_of_mem _ hv)) _

/-- C19 (refuted as stated): with `voxel_size = 2^-31` the eleven labelled points
`(2, 0, 0), ..., (12, 0, 0)` have floors from `2^32` upward on the first axis, beyond the
32-bit `int`, so all receive the key `(INT_MIN, 0, 0)` while their snapped corners are one
unit apart: the single reservoir accepts nine points after nine rows, ten after ten, and
the in-stream `resize` runs (counter 11, one slot left). -/
theorem C19_overflowing_keys_fill_a_reservoir :
    (0 : ℚ) < 1 / 2147483648
    ∧ (∀ w ∈ overflowRows, w.2.2 ≠ 0)
    ∧ (streamingPass32 pclPca (rowsCloud (overflowRows.take 9))
          (rowsLabels (overflowRows.take 9)) true (1 / 2147483648)).map
        (fun voxels => voxels.map (fun e => (e.1, e.2.i, e.2.points_.length)))
        = some [(((-2147483648, 0, 0) : Vector3i), 9, 10)]
    ∧ streamingPass32 pclPca (rowsCloud overflowRows) (rowsLabels overflowRows) true
          (1 / 2147483648)
        = some [(((-2147483648, 0, 0) : Vector3i),
            { n := 10, i := 11, points_ := [vcAt 2 0 0 1] })] := by
  refine ⟨by norm_num, by decide!, by decide!, by decide!⟩

/-- C19 (amended): for every labelled input and every positive `voxel_size` such that the
truncated index of every processed point is representable in the 32-bit `int` on each
axis, the streaming pass (with the 32-bit key) returns a map in which every processed
point's key has an entry, each reservoir has accepted at least one and at most eight
points and still has its ten slots, each reservoir is what the first block of
`insert_if_room` alone produces from its candidates (the in-stream `resize` is never
executed, also after every prefix of the input), and a reservoir whose key has no zero
component retains exactly the first non-skipped point of its key. -/
theorem C19_representable_keys_stay_below_capacity (pca : Pca) (rows : List Row)
    (voxel_size : ℚ) (hs : 0 < voxel_size)
    (hfit : ∀ w ∈ rows, w.2.2 ≠ 0 →
      fitsInt32 (keyOf voxel_size w).1 ∧ fitsInt32 (keyOf voxel_size w).2.1
        ∧ fitsInt32 (keyOf voxel_size w).2.2) :
    (∃ voxels : VoxelMap,
      streamingPass32 pca (rowsCloud rows) (rowsLabels rows) true voxel_size = some voxels
      ∧ (∀ w ∈ rows, w.2.2 ≠ 0 →
          get_voxel32 w.1.1 w.1.2.1 w.1.2.2 voxel_size = keyOf voxel_size w
          ∧ ∃ c, (get_voxel32 w.1.1 w.1.2.1 w.1.2.2 voxel_size, c) ∈ voxels)
      ∧ (∀ e ∈ voxels,
          candidatesFor voxel_size rows e.1 ≠ []
          ∧ 1 ≤ e.2.i ∧ e.2.i ≤ 8 ∧ e.2.n = 10 ∧ e.2.points_.length = 10
          ∧ e.2 = (candidatesFor voxel_size rows e.1).foldl acceptBlock
              SamplePointsContainer.new)
      ∧ (∀ e ∈ voxels, e.1.1 ≠ 0 → e.1.2.1 ≠ 0 → e.1.2.2 ≠ 0 →
          e.2.i = 1 ∧ retained e.2 = (candidatesFor voxel_size rows e.1).take 1))
    ∧ ∀ m : Nat, ∃ before : VoxelMap,
        streamingPass32 pca (rowsCloud (rows.take m)) (rowsLabels (rows.take m)) true
            voxel_size = some before
        ∧ ∀ e ∈ before, e.2.i ≤ 8 ∧ e.2.points_.length = 10 := by
  have _ := hs
  constructor
  · refine ⟨rows.foldl (rowStep pca voxel_size) [], ?_, ?_,
      streaming_below_capacity pca rows voxel_size, streaming_first_only pca rows voxel_size⟩
    · rw [streamingPass32_rows, foldl_rowStep32_eq pca voxel_size rows hfit]
    · intro w hw hw0
      have hkey := get_voxel32_eq voxel_size w (hfit w hw hw0)
      refine ⟨hkey, ?_⟩
      rw [hkey]
      apply (grouped_foldl pca voxel_size rows).2.2
      rw [candidatesFor_ne_nil_iff]
      unfold distinctKeys
      rw [List.mem_dedup, List.mem_map]
      exact ⟨w, List.mem_filter.mpr ⟨hw, by simpa using hw0⟩, rfl⟩
  · intro m
    refine ⟨(rows.take m).foldl (rowStep pca voxel_size) [], ?_, ?_⟩
    · rw [streamingPass32_rows, foldl_rowStep32_eq pca voxel_size (rows.take m)
        (fun w hw => hfit w (List.mem_of_mem_take hw))]
    · intro e he
      have h := streaming_below_capacity pca (rows.take m) voxel_size e he
      exact ⟨h.2.2.1, h.2.2.2.2.1⟩

/-- C19 (amended) at the labelled input `sampleRows` with `voxel_size = 1`. -/
theorem C19_representable_keys_stay_below_capacity_witness :
    (0 : ℚ) < 1
    ∧ (∀ w ∈ sampleRows, w.2.2 ≠ 0 →
        fitsInt32 (keyOf 1 w).1 ∧ fitsInt32 (keyOf 1 w).2.1 ∧ fitsInt32 (keyOf 1 w).2.2)
    ∧ ∀ m : Nat, ∃ before : VoxelMap,
        streamingPass32 pclPca (rowsCloud (sampleRows.take m)) (rowsLabels (sampleRows.take m))
            true 1 = some before
        ∧ ∀ e ∈ before, e.2.i ≤ 8 ∧ e.2.points_.length = 10 :=
  ⟨by norm_num, by decide!,
    (C19_representable_keys_stay_below_capacity pclPca sampleRows 1 (by norm_num)
      (by decide!)).2⟩

/-! ## Ten points in one cube -/

/-- When every row is processed and has key `k0`, the streaming map has the single entry
`k0`, whose reservoir was offered all rows in input order. -/
theorem streaming_single_key (pca : Pca) (voxel_size : ℚ) (rows : List Row) (k0 : Vector3i)
    (hne : rows ≠ []) (hall : ∀ w ∈ rows, w.2.2 ≠ 0 ∧ keyOf voxel_size w = k0) :
    rows.foldl (rowStep pca voxel_size) []
      = [(k0, (rows.map (centerOf voxel_size)).foldl (insert_if_room pca)
          SamplePointsContainer.new)] := by
  have hg := grouped_foldl pca voxel_size rows
  have hcands : candidatesFor voxel_size rows k0 = rows.map (centerOf voxel_size) := by
    unfold candidatesFor rowsFor
    rw [List.filter_eq_self.mpr]
    intro w hw
    have := hall w hw
    simp only [Bool.and_eq_true, decide_eq_true_eq]
    exact ⟨this.1, this.2⟩
  have hkey : ∀ e ∈ rows.foldl (rowStep pca voxel_size) [], e.1 = k0 := by
    intro e he
    have h1 := (hg.2.1 e he).1
    rw [candidatesFor_ne_nil_iff] at h1
    unfold distinctKeys at h1
    rw [List.mem_dedup, List.mem_map] at h1
    obtain ⟨w, hw, hk⟩ := h1
    rw [List.mem_filter] at hw
    rw [← hk]
    exact (hall w hw.1).2
  have hval : ∀ e ∈ rows.foldl (rowStep pca voxel_size) [],
      e = (k0, (rows.map (centerOf voxel_size)).foldl (insert_if_room pca)
        SamplePointsContainer.new) := by
    intro e he
    apply Prod.ext
    · exact hkey e he
    · have h2 := (hg.2.1 e he).2
      rw [hkey e he, hcands] at h2
      exact h2
  have hpres : ∃ c, (k0, c) ∈ rows.foldl (rowStep pca voxel_size) [] := by
    apply hg.2.2
    rw [hcands]
    simpa using hne
  have hsorted := hg.1
  generalize rows.foldl (rowStep pca voxel_size) [] = voxels at hkey hval hpres hsorted
  match voxels, hkey, hval, hpres, hsorted with
  | [], _, _, hpres, _ =>
    obtain ⟨c, hc⟩ := hpres
    simp at hc
  | [e], _, hval, _, _ =>
    rw [hval e (List.mem_cons_self _ _)]
  | e1 :: e2 :: tl, hkey, _, _, hsorted =>
    exfalso
    unfold KeysSorted at hsorted
    rw [List.pairwise_cons] at hsorted
    have hlt := hsorted.1 e2 (List.mem_cons_self _ _)
    rw [hkey e1 (List.mem_cons_self _ _),
      hkey e2 (List.mem_cons_of_mem _ (List.mem_cons_self _ _))] at hlt
    exact lexLt_irrefl k0 hlt

/-- C13 (refuted as stated): the ten points of `cubeRows` lie in the cube `[0, 1)^3`
(`voxel_size = 1`), carry label 7, are pairwise farther apart than 0.032 and are not
coplanar (the first four span a tetrahedron, and the smallest eigenvalue of their scatter
matrix exceeds 1e-5), yet the run emits one line, not four. -/
theorem C13_ten_non_coplanar_points_give_one_line :
    cubeRows.length = 10
    ∧ (∀ w ∈ cubeRows, w.2.2 = 7)
    ∧ (∀ w ∈ cubeRows, cubeOf 1 w = (0, 0, 0))
    ∧ cubeRows.Pairwise (fun a b => (32 / 1000) * (32 / 1000) < sqDistV a.1 b.1)
    ∧ det4 (1 / 10, 1 / 10, 1 / 10) (9 / 10, 1 / 10, 1 / 10) (1 / 10, 9 / 10, 1 / 10)
        (1 / 10, 1 / 10, 9 / 10) ≠ 0
    ∧ pclPca (cubeRows.map (fun w => w.1)) (1 / 100000) = true
    ∧ adaptive_sampling pclPca (rowsCloud cubeRows) (some (rowsLabels cubeRows)) 1
        = some [{ x := 0, y := 0, z := 0, r := 1, g := 0, b := 0, label := some 7 }] := by
  refine ⟨by decide!, by decide!, by decide!, by decide!, by decide!, by decide!, by decide!⟩

/-- C13 (amended): for `voxel_size = 1` and every input of ten points with label 7 lying in
one cube (equal floors on every axis), whatever their mutual distances and whether or not
they are coplanar, the run emits exactly one line: the first point, with its colour, the
snapped corner of the cube and label 7. -/
theorem C13_ten_points_in_one_cube_give_one_line (pca : Pca) (rows : List Row)
    (cube : Vector3i) (hlen : rows.length = 10) (hlab : ∀ w ∈ rows, w.2.2 = 7)
    (hcube : ∀ w ∈ rows, cubeOf 1 w = cube) :
    ∃ w0, rows.head? = some w0
      ∧ adaptive_sampling pca (rowsCloud rows) (some (rowsLabels rows)) 1
          = some [{ x := (cube.1 : ℚ), y := (cube.2.1 : ℚ), z := (cube.2.2 : ℚ),
                    r := w0.2.1.1, g := w0.2.1.2.1, b := w0.2.1.2.2, label := some 7 }] := by
  cases rows with
  | nil => simp at hlen
  | cons w0 rest =>
    refine ⟨w0, rfl, ?_⟩
    have hk : ∀ w ∈ w0 :: rest, w.2.2 ≠ 0 ∧ keyOf 1 w = keyOf 1 w0 := by
      intro w hw
      constructor
      · rw [hlab w hw]
        decide
      · rw [keyOf_eq, keyOf_eq, hcube w hw, hcube w0 (List.mem_cons_self _ _)]
    have hmap := streaming_single_key pca 1 (w0 :: rest) (keyOf 1 w0) (by simp) hk
    have hstate := foldl_same_place pca (centerOf 1 w0) (rest.map (centerOf 1)) (by
      intro vc hvc
      rw [List.mem_map] at hvc
      obtain ⟨w, hw, rfl⟩ := hvc
      apply sqDist_eq_zero_of_pos
      rw [centerOf_pos, centerOf_pos, hcube w (List.mem_cons_of_mem _ hw),
        hcube w0 (List.mem_cons_self _ _)])
    rw [List.map_cons] at hmap
    rw [hstate] at hmap
    simp only [adaptive_sampling, sampledVoxels, Option.getD_some, Option.isSome_some,
      streamingPass_rows, Option.map_some', hmap, exportLines_resizeSweep]
    have hres : (resize pca { SamplePointsContainer.new with
        points_ := SamplePointsContainer.new.points_.set 0 (centerOf 1 w0), i := 1 }).points_
        = [centerOf 1 w0] := by
      rw [resize_of_lt_three pca _ (by simp only; omega)]
      simp only
      rw [vecResize_of_le _ _ (by simp [SamplePointsContainer.new])]
      simp [SamplePointsContainer.new, List.replicate]
    simp only [List.map_cons, List.map_nil, List.flatten_cons, List.flatten_nil,
      List.append_nil, hres]
    have hc0 := hcube w0 (List.mem_cons_self _ _)
    have hl0 := hlab w0 (List.mem_cons_self _ _)
    simp only [outputLine, centerOf, makeCenter, if_true, hl0]
    unfold cubeOf at hc0
    rw [← hc0]
    simp

/-- C13 (amended) at the ten points of `cubeRows`. -/
theorem C13_ten_points_in_one_cube_give_one_line_witness :
    cubeRows.length = 10 ∧ (∀ w ∈ cubeRows, w.2.2 = 7)
    ∧ (∀ w ∈ cubeRows, cubeOf 1 w = (0, 0, 0))
    ∧ ∃ w0, cubeRows.head? = some w0
      ∧ adaptive_sampling pclPca (rowsCloud cubeRows) (some (rowsLabels cubeRows)) 1
          = some [{ x := (((0, 0, 0) : Vector3i).1 : ℚ), y := (((0, 0, 0) : Vector3i).2.1 : ℚ),
                    z := (((0, 0, 0) : Vector3i).2.2 : ℚ),
                    r := w0.2.1.1, g := w0.2.1.2.1, b := w0.2.1.2.2, label := some 7 }] :=
  ⟨by decide!, by decide!, by decide!,
    C13_ten_points_in_one_cube_give_one_line pclPca cubeRows (0, 0, 0)
      (by decide!) (by decide!) (by decide!)⟩

end DownSample
